import Mathlib

/-!
Verification development for the `filesortr` repository (`file_sorter.py`).

The filesystem is shallowly embedded as finite lists of directory paths and
file paths, where a path is the list of its segments after resolution.
Every function below is translated from the corresponding Python function in
`src/file_sorter.py`; per-item filesystem faults (permission errors on a
`shutil.move`) are injected through explicit fault sets, since that is the
only nondeterminism the claims mention.
-/

namespace FileSorter

/-- A resolved absolute path, as its list of segments. -/
abbrev FPath := List String

/-- The relevant parts of the loaded configuration (the global configuration
variables of `file_sorter.py`). Category values keep their raw string form,
e.g. `"Documents/Text"`, split on `/` only when a destination is built,
exactly as `pathlib` does. -/
structure Config where
  fileCategories : List (String × String)
  defaultCategory : String
  projectFileMarkers : List String
  projectDirMarkers : List String
  specialAppDirsAsFiles : List String
  deriving Repr, DecidableEq

/-- The default (fallback) configuration values of `file_sorter.py`. -/
def defaultConfig : Config :=
  { fileCategories := [("txt", "Documents/Text")]
  , defaultCategory := "Miscellaneous/Other"
  , projectFileMarkers := [".git"]
  , projectDirMarkers := ["node_modules"]
  , specialAppDirsAsFiles := [".app"] }

/-- A finite filesystem: the set of existing directories and existing files. -/
structure FS where
  dirs : List FPath
  files : List FPath
  deriving Repr, DecidableEq

def FS.existsP (fs : FS) (p : FPath) : Bool :=
  fs.dirs.contains p || fs.files.contains p

def FS.isDirP (fs : FS) (p : FPath) : Bool :=
  fs.dirs.contains p

/-- `child` is an immediate child of `parent`. -/
def isChildOf (parent child : FPath) : Bool :=
  child.length = parent.length + 1 && parent.isPrefixOf child

/-- Last segment of a path (`Path.name`); `""` for an empty path. -/
def lastName (p : FPath) : String :=
  (p.getLast?).getD ""

/-- Names of the immediate subdirectories of `p` (the `dirs` of `os.walk`). -/
def FS.childDirNames (fs : FS) (p : FPath) : List String :=
  (fs.dirs.filter (fun d => isChildOf p d)).map lastName

/-- Names of the files directly inside `p` (the `files` of `os.walk`). -/
def FS.childFileNames (fs : FS) (p : FPath) : List String :=
  (fs.files.filter (fun f => isChildOf p f)).map lastName

/-- `os.listdir` / `cache_directory_contents`: names of all immediate
children (subdirectory names first, then file names). -/
def FS.listdir (fs : FS) (p : FPath) : List String :=
  fs.childDirNames p ++ fs.childFileNames p

-- ---------------------------------------------------------------------------
-- String helpers mirroring `pathlib` / `str` semantics
-- ---------------------------------------------------------------------------

/-- `str.lower` on a single ASCII character. -/
def charLower (c : Char) : Char :=
  if 65 ≤ c.toNat ∧ c.toNat ≤ 90 then Char.ofNat (c.toNat + 32) else c

/-- `str.lower`. -/
def strLower (s : String) : String :=
  String.mk (s.toList.map charLower)

/-- `str.lstrip('.')`: remove all leading dots. -/
def lstripDots (s : String) : String :=
  String.mk (s.toList.dropWhile (fun c => c = '.'))

/-- Index of the first `'.'` in a character list, if any. -/
def firstDotIdx : List Char → Option Nat
  | [] => none
  | c :: cs => if c = '.' then some 0 else (firstDotIdx cs).map (· + 1)

/-- Index of the last `'.'` (`str.rfind('.')` when present). -/
def lastDotPos (cs : List Char) : Option Nat :=
  (firstDotIdx cs.reverse).map (fun j => cs.length - 1 - j)

/-- `pathlib`'s split of a file name into `stem` and `suffix`: the suffix is
`name[i:]` when the last dot sits at an index `i` with `0 < i < len - 1`,
otherwise empty. -/
def pySplitExt (name : String) : String × String :=
  let cs := name.toList
  match lastDotPos cs with
  | none => (name, "")
  | some i =>
    if 0 < i ∧ i + 1 < cs.length then
      (String.mk (cs.take i), String.mk (cs.drop i))
    else (name, "")

def pyStem (name : String) : String := (pySplitExt name).1

def pySuffix (name : String) : String := (pySplitExt name).2

/-- `str.endswith`. -/
def strEndsWith (s sfx : String) : Bool :=
  sfx.toList.isSuffixOf s.toList

/-- Split a character list on a separator; always returns at least one part. -/
def splitOnChar (sep : Char) : List Char → List (List Char)
  | [] => [[]]
  | c :: cs =>
    if c = sep then [] :: splitOnChar sep cs
    else
      match splitOnChar sep cs with
      | [] => [[c]]
      | h :: t => (c :: h) :: t

/-- `"Documents/Text"` ↦ `["Documents", "Text"]` (what `output_dir / s` does). -/
def splitSlash (s : String) : List String :=
  (splitOnChar '/' s.toList).map String.mk

-- ---------------------------------------------------------------------------
-- `get_category_for_file`
-- ---------------------------------------------------------------------------

/-- The extension the code extracts: `Path(filename).suffix.lower().lstrip('.')`. -/
def extOf (filename : String) : String :=
  lstripDots (strLower (pySuffix filename))

/-- `get_category_for_file`. -/
def get_category_for_file (cfg : Config) (filename : String) : String :=
  (cfg.fileCategories.lookup (extOf filename)).getD cfg.defaultCategory

-- ---------------------------------------------------------------------------
-- `is_project_or_app_folder`
-- ---------------------------------------------------------------------------

/-- `is_project_or_app_folder`. -/
def is_project_or_app_folder (cfg : Config) (dirPath : FPath)
    (dirContents : List String) : Bool :=
  (cfg.specialAppDirsAsFiles.any (fun suf => strEndsWith (lastName dirPath) suf))
  || dirContents.any (fun item =>
       cfg.projectFileMarkers.contains item || cfg.projectDirMarkers.contains item)

-- ---------------------------------------------------------------------------
-- `identify_projects`
-- ---------------------------------------------------------------------------

/-- `processed == path or processed in path.parents` for some processed entry:
some already-claimed path is the path itself or an ancestor of it. -/
def coveredBy (processed : List FPath) (p : FPath) : Bool :=
  processed.any (fun q => q.isPrefixOf p)

/-- Name of the destination area for claimed projects. -/
def AAP : String := "Applications_And_Projects"

/-- The per-child claim check of `identify_projects`: an immediate
subdirectory that is not covered and whose non-empty listing classifies it is
claimed with destination `<current>/Applications_And_Projects/<childname>`. -/
def childClaim (fs : FS) (cfg : Config) (processed : List FPath) (p : FPath)
    (d : String) : Option (FPath × FPath) :=
  if coveredBy processed (p ++ [d]) then none
  else if fs.listdir (p ++ [d]) ≠ []
      ∧ is_project_or_app_folder cfg (p ++ [d]) (fs.listdir (p ++ [d])) = true then
    some (p ++ [d], p ++ [AAP, d])
  else none

/-- The body of `identify_projects`: a top-down walk with pruning.  At each
directory: prune if covered by an already-claimed path; else claim the
directory itself when its (non-empty) listing classifies it; else claim each
classifying immediate subdirectory, remove the claimed and covered ones from
the traversal, and recurse into the remaining subdirectories. -/
def identifyGo (fs : FS) (cfg : Config) (processed : List FPath) :
    Nat → FPath → List (FPath × FPath)
  | 0, _ => []
  | fuel + 1, p =>
    if coveredBy processed p then []
    else
      if fs.listdir p ≠ [] ∧ is_project_or_app_folder cfg p (fs.listdir p) = true then
        [(p, p.dropLast ++ [AAP, lastName p])]
      else
        let subs := fs.childDirNames p
        let claimedHere := subs.filterMap (childClaim fs cfg processed p)
        let remaining := subs.filter (fun d =>
          ¬ (coveredBy processed (p ++ [d]) = true
             ∨ (fs.listdir (p ++ [d]) ≠ []
                ∧ is_project_or_app_folder cfg (p ++ [d]) (fs.listdir (p ++ [d])) = true)))
        claimedHere ++ (remaining.map (fun d =>
          identifyGo fs cfg processed fuel (p ++ [d]))).flatten

/-- Maximal length of a path present in the filesystem. -/
def FS.maxDepth (fs : FS) : Nat :=
  ((fs.dirs ++ fs.files).map List.length).foldr max 0

/-- `identify_projects`. -/
def identify_projects (fs : FS) (cfg : Config) (inputDir : FPath)
    (processed : List FPath) : List (FPath × FPath) :=
  identifyGo fs cfg processed (fs.maxDepth + 1) inputDir

-- ---------------------------------------------------------------------------
-- Filesystem mutation primitives
-- ---------------------------------------------------------------------------

/-- All non-empty proper initial segments of a path, including itself. -/
def pathPrefixes (p : FPath) : List FPath :=
  (List.range p.length).map (fun i => p.take (i + 1))

/-- `Path.mkdir(parents=True, exist_ok=True)`. -/
def FS.mkdirParents (fs : FS) (p : FPath) : FS :=
  ⟨fs.dirs ++ (pathPrefixes p).filter (fun q => ¬ fs.dirs.contains q = true), fs.files⟩

/-- Rebase a path under `src` onto `tgt`. -/
def rebase (src tgt p : FPath) : FPath :=
  tgt ++ p.drop src.length

/-- `shutil.move` of a whole directory: every path under `src` (inclusive) is
rebased onto `tgt`. -/
def FS.moveTree (fs : FS) (src tgt : FPath) : FS :=
  ⟨fs.dirs.map (fun d => if src.isPrefixOf d then rebase src tgt d else d),
   fs.files.map (fun f => if src.isPrefixOf f then rebase src tgt f else f)⟩

/-- `shutil.move` of a single file. -/
def FS.moveFile (fs : FS) (src tgt : FPath) : FS :=
  ⟨fs.dirs, fs.files.map (fun f => if f = src then tgt else f)⟩

/-- Delete a directory entry (`Path.rmdir`). -/
def FS.removeDir (fs : FS) (d : FPath) : FS :=
  ⟨fs.dirs.filter (fun q => ¬ q = d), fs.files⟩

-- ---------------------------------------------------------------------------
-- `generate_unique_filename`
-- ---------------------------------------------------------------------------

/-- The disambiguated candidate name `{stem} ({n}){suffix}`. -/
def candName (stem sfx : String) (n : Nat) : String :=
  stem ++ " (" ++ toString n ++ ")" ++ sfx

/-- The collision loop of `generate_unique_filename`: try increasing counters;
after a collision at counter 10000 give up and return the original path. -/
def uniqGo (fs : FS) (parent : FPath) (stem sfx : String) (orig : FPath) :
    Nat → Nat → FPath
  | _, 0 => orig
  | counter, fuel + 1 =>
    let newPath := parent ++ [candName stem sfx counter]
    if fs.existsP newPath = false then newPath
    else if counter + 1 > 10000 then orig
    else uniqGo fs parent stem sfx orig (counter + 1) fuel

/-- `generate_unique_filename`. -/
def generate_unique_filename (fs : FS) (target : FPath) : FPath :=
  if fs.existsP target = false then target
  else
    uniqGo fs target.dropLast (pyStem (lastName target)) (pySuffix (lastName target))
      target 1 10000

-- ---------------------------------------------------------------------------
-- `move_project` and `categorize_and_move_file`
-- ---------------------------------------------------------------------------

/-- `move_project`.  `failProjects` injects the per-item `shutil.move`
failures the code catches; on failure the filesystem is untouched and
`false` is returned. -/
def move_project (fs : FS) (src dst outputDir : FPath) (dryRun : Bool)
    (failProjects : List FPath) : FS × Bool :=
  let target := outputDir ++ dst.drop src.dropLast.length
  if dryRun then (fs, true)
  else if failProjects.contains src then (fs, false)
  else ((fs.mkdirParents target.dropLast).moveTree src target, true)

/-- `categorize_and_move_file`.  Returns the updated filesystem, the success
flag, and the computed destination (the logged decision). -/
def categorize_and_move_file (cfg : Config) (fs : FS) (filePath outputDir : FPath)
    (dryRun : Bool) (failFiles : List FPath) : FS × Bool × FPath :=
  let categoryPath := get_category_for_file cfg (lastName filePath)
  let targetFileDir := outputDir ++ splitSlash categoryPath
  let targetFilePath := generate_unique_filename fs (targetFileDir ++ [lastName filePath])
  if dryRun then (fs, true, targetFilePath)
  else if failFiles.contains filePath then (fs, false, targetFilePath)
  else ((fs.mkdirParents targetFileDir).moveFile filePath targetFilePath, true, targetFilePath)

-- ---------------------------------------------------------------------------
-- `cleanup_empty_directories`
-- ---------------------------------------------------------------------------

/-- Insert a path into a list sorted by decreasing length. -/
def insertDepth (p : FPath) : List FPath → List FPath
  | [] => [p]
  | q :: rest =>
    if q.length ≤ p.length then p :: q :: rest else q :: insertDepth p rest

/-- `sorted(..., key=len(parts), reverse=True)`. -/
def sortDepthDesc : List FPath → List FPath
  | [] => []
  | p :: rest => insertDepth p (sortDepthDesc rest)

/-- The deletion loop of `cleanup_empty_directories`: skip the input root,
delete a directory that exists and is currently empty, silently skip
everything else. -/
def cleanupGo (inputDir : FPath) : FS → List FPath → FS × Nat
  | fs, [] => (fs, 0)
  | fs, d :: rest =>
    if d = inputDir then cleanupGo inputDir fs rest
    else if fs.existsP d && fs.isDirP d && (fs.listdir d).isEmpty then
      let res := cleanupGo inputDir (fs.removeDir d) rest
      (res.1, res.2 + 1)
    else cleanupGo inputDir fs rest

/-- `cleanup_empty_directories`. -/
def cleanup_empty_directories (fs : FS) (inputDir : FPath)
    (directoriesToCheck : List FPath) (dryRun : Bool) : FS × Nat :=
  if dryRun then (fs, 0)
  else cleanupGo inputDir fs (sortDepthDesc directoriesToCheck)

-- ---------------------------------------------------------------------------
-- `validate_input_paths`
-- ---------------------------------------------------------------------------

/-- `validate_input_paths`.  The nested-output `ValueError` raised inside the
`try` block of the source is caught by that block's own
`except ValueError: pass` handler, so a nested output path is not rejected:
the translation therefore accepts it. -/
def validate_input_paths (fs : FS) (inputDir : FPath) (outputDirOpt : Option FPath) :
    Except String (FPath × FPath) :=
  if fs.existsP inputDir = false then .error "FileNotFoundError"
  else if fs.isDirP inputDir = false then .error "NotADirectoryError"
  else
    let outputDir := outputDirOpt.getD (inputDir.dropLast ++ [lastName inputDir ++ "_Sorted"])
    if inputDir = outputDir then .error "ValueError: input == output"
    else .ok (inputDir, outputDir)

-- ---------------------------------------------------------------------------
-- `sort_files`
-- ---------------------------------------------------------------------------

/-- State threaded through phase 1 (project relocation). -/
structure P1State where
  fs : FS
  processed : List FPath
  projectsMoved : Nat
  errors : Nat
  processedItems : Nat
  deriving Repr, DecidableEq

/-- One iteration of the phase-1 loop of `sort_files`. -/
def phase1Step (outputDir : FPath) (dryRun : Bool) (failProjects : List FPath)
    (st : P1State) (pr : FPath × FPath) : P1State :=
  let res := move_project st.fs pr.1 pr.2 outputDir dryRun failProjects
  if res.2 then
    { st with
      fs := res.1
      processed := st.processed ++ [pr.1]
      projectsMoved := st.projectsMoved + 1
      processedItems := st.processedItems + 1 }
  else
    { st with
      fs := res.1
      errors := st.errors + 1
      processedItems := st.processedItems + 1 }

/-- State threaded through phase 2 (individual file relocation). -/
structure P2State where
  fs : FS
  filesMoved : Nat
  errors : Nat
  processedItems : Nat
  candidates : List FPath
  decisions : List (FPath × FPath)
  deriving Repr, DecidableEq

/-- The inner loop of phase 2 over the files of one directory. -/
def processFilesIn (cfg : Config) (outputDir : FPath) (dryRun : Bool)
    (failFiles : List FPath) (processed : List FPath) (p : FPath)
    (names : List String) (st : P2State) : P2State :=
  names.foldl (fun st name =>
    let filePath := p ++ [name]
    if processed.any (fun q => q.isPrefixOf filePath && ¬ q = filePath) then st
    else
      let res := categorize_and_move_file cfg st.fs filePath outputDir dryRun failFiles
      { st with
        fs := res.1
        decisions := st.decisions ++ [(filePath, res.2.2)]
        filesMoved := st.filesMoved + (if res.2.1 then 1 else 0)
        errors := st.errors + (if res.2.1 then 0 else 1)
        processedItems := st.processedItems + 1 }) st

/-- The phase-2 walk of `sort_files`: a top-down `os.walk` that prunes
claimed project subtrees, records every other visited directory as a cleanup
candidate, and categorizes and moves each file. -/
def phase2Go (cfg : Config) (outputDir : FPath) (dryRun delEmpty : Bool)
    (failFiles processed : List FPath) : Nat → FPath → P2State → P2State
  | 0, _, st => st
  | fuel + 1, p, st =>
    if coveredBy processed p then st
    else
      let st1 := if delEmpty then { st with candidates := st.candidates ++ [p] } else st
      let dnames := st1.fs.childDirNames p
      let fnames := st1.fs.childFileNames p
      let st2 := processFilesIn cfg outputDir dryRun failFiles processed p fnames st1
      dnames.foldl (fun st d =>
        phase2Go cfg outputDir dryRun delEmpty failFiles processed fuel (p ++ [d]) st) st2

/-- The observable outcome of one `sort_files` run. -/
structure RunResult where
  fs : FS
  validated : Bool
  inputDir : FPath
  outputDir : FPath
  projects : List (FPath × FPath)
  processed : List FPath
  projectsMoved : Nat
  filesMoved : Nat
  errors : Nat
  dirsDeleted : Nat
  candidates : List FPath
  decisions : List (FPath × FPath)
  success : Bool
  deriving Repr, DecidableEq

/-- Phase 1 of `sort_files`: identify the projects and fold the move loop. -/
def phase1Run (cfg : Config) (fs : FS) (inputDir outputDir : FPath)
    (dryRun : Bool) (failProjects : List FPath) : P1State :=
  (identify_projects fs cfg inputDir []).foldl (phase1Step outputDir dryRun failProjects)
    ⟨fs, [], 0, 0, 0⟩

/-- Phases of `sort_files` once validation has succeeded. -/
def sortPhases (cfg : Config) (fs : FS) (inputDir outputDir : FPath)
    (dryRun deleteEmptyDirs : Bool) (failProjects failFiles : List FPath) : RunResult :=
  let projects := identify_projects fs cfg inputDir []
  let st1 := phase1Run cfg fs inputDir outputDir dryRun failProjects
  let st2 := phase2Go cfg outputDir dryRun deleteEmptyDirs failFiles st1.processed
    (fs.maxDepth + 1) inputDir ⟨st1.fs, 0, 0, st1.processedItems, [], []⟩
  let cleaned :=
    if deleteEmptyDirs then
      cleanup_empty_directories st2.fs inputDir st2.candidates dryRun
    else (st2.fs, 0)
  let totalErrors := st1.errors + st2.errors
  { fs := cleaned.1, validated := true, inputDir := inputDir, outputDir := outputDir
  , projects := projects, processed := st1.processed
  , projectsMoved := st1.projectsMoved, filesMoved := st2.filesMoved
  , errors := totalErrors, dirsDeleted := cleaned.2, candidates := st2.candidates
  , decisions := st2.decisions, success := totalErrors == 0 }

/-- `sort_files`: validate, identify projects, move them, move the remaining
files, optionally reclaim empty directories, and report success iff the error
counter stayed at zero. -/
def sort_files (cfg : Config) (fs : FS) (inputDirStr : FPath)
    (outputDirOpt : Option FPath) (dryRun deleteEmptyDirs : Bool)
    (failProjects failFiles : List FPath) : RunResult :=
  match validate_input_paths fs inputDirStr outputDirOpt with
  | .error _ =>
    { fs := fs, validated := false, inputDir := inputDirStr, outputDir := []
    , projects := [], processed := [], projectsMoved := 0, filesMoved := 0
    , errors := 0, dirsDeleted := 0, candidates := [], decisions := []
    , success := false }
  | .ok (inputDir, outputDir) =>
    sortPhases cfg fs inputDir outputDir dryRun deleteEmptyDirs failProjects failFiles

theorem sort_files_eq_sortPhases {cfg : Config} {fs : FS} {inputDirStr : FPath}
    {outputDirOpt : Option FPath} {dryRun deleteEmptyDirs : Bool}
    {failProjects failFiles : List FPath} {inputDir outputDir : FPath}
    (hval : validate_input_paths fs inputDirStr outputDirOpt = .ok (inputDir, outputDir)) :
    sort_files cfg fs inputDirStr outputDirOpt dryRun deleteEmptyDirs failProjects failFiles
      = sortPhases cfg fs inputDir outputDir dryRun deleteEmptyDirs failProjects failFiles := by
  rw [sort_files, hval]

-- ---------------------------------------------------------------------------
-- Well-formed filesystems
-- ---------------------------------------------------------------------------

/-- Well-formedness of a filesystem snapshot: no duplicate entries, and no
path is both a directory and a file. -/
structure FS.WF (fs : FS) : Prop where
  dirsNodup : fs.dirs.Nodup
  filesNodup : fs.files.Nodup
  disjoint : ∀ p, p ∈ fs.dirs → p ∈ fs.files → False

-- ---------------------------------------------------------------------------
-- Basic path lemmas
-- ---------------------------------------------------------------------------

theorem contains_iff {α : Type} [BEq α] [LawfulBEq α] {l : List α} {x : α} :
    l.contains x = true ↔ x ∈ l := by
  simp [List.contains, List.elem_iff]

theorem coveredBy_iff {P : List FPath} {p : FPath} :
    coveredBy P p = true ↔ ∃ q ∈ P, q <+: p := by
  simp [coveredBy, List.any_eq_true, List.isPrefixOf_iff_prefix]

theorem coveredBy_eq_false_iff {P : List FPath} {p : FPath} :
    coveredBy P p = false ↔ ∀ q ∈ P, ¬ q <+: p := by
  rw [← Bool.not_eq_true, coveredBy_iff]
  push_neg
  rfl

theorem prefix_snoc_iff {q p : FPath} {n : String} :
    q <+: p ++ [n] ↔ q <+: p ∨ q = p ++ [n] := by
  constructor
  · intro h
    rcases List.prefix_concat_iff.mp h with h | h
    · exact Or.inr h
    · exact Or.inl h
  · rintro (h | rfl)
    · exact h.trans (List.prefix_append p [n])
    · exact List.prefix_refl _

theorem isChildOf_iff {p c : FPath} :
    isChildOf p c = true ↔ c.length = p.length + 1 ∧ p <+: c := by
  simp [isChildOf, List.isPrefixOf_iff_prefix]

theorem child_eq_parent_snoc {p c : FPath} (h : isChildOf p c = true) :
    c = p ++ [lastName c] := by
  obtain ⟨hlen, t, rfl⟩ := isChildOf_iff.mp h
  have hl : t.length = 1 := by
    have := List.length_append p t
    omega
  obtain ⟨a, rfl⟩ : ∃ a, t = [a] := by
    cases t with
    | nil => simp at hl
    | cons a t' =>
      cases t' with
      | nil => exact ⟨a, rfl⟩
      | cons b t'' => simp at hl
  simp [lastName, List.getLast?_concat]

theorem mem_childDirNames {fs : FS} {p : FPath} {n : String} :
    n ∈ fs.childDirNames p ↔ p ++ [n] ∈ fs.dirs := by
  constructor
  · intro h
    obtain ⟨d, hd, rfl⟩ := List.mem_map.mp h
    have hmem := List.mem_filter.mp hd
    have := child_eq_parent_snoc hmem.2
    rw [← this]
    exact hmem.1
  · intro h
    refine List.mem_map.mpr ⟨p ++ [n], List.mem_filter.mpr ⟨h, ?_⟩, ?_⟩
    · exact isChildOf_iff.mpr ⟨by simp, List.prefix_append p [n]⟩
    · simp [lastName, List.getLast?_concat]

theorem mem_childFileNames {fs : FS} {p : FPath} {n : String} :
    n ∈ fs.childFileNames p ↔ p ++ [n] ∈ fs.files := by
  constructor
  · intro h
    obtain ⟨d, hd, rfl⟩ := List.mem_map.mp h
    have hmem := List.mem_filter.mp hd
    have := child_eq_parent_snoc hmem.2
    rw [← this]
    exact hmem.1
  · intro h
    refine List.mem_map.mpr ⟨p ++ [n], List.mem_filter.mpr ⟨h, ?_⟩, ?_⟩
    · exact isChildOf_iff.mpr ⟨by simp, List.prefix_append p [n]⟩
    · simp [lastName, List.getLast?_concat]

theorem childDirNames_nodup {fs : FS} (h : fs.dirs.Nodup) (p : FPath) :
    (fs.childDirNames p).Nodup := by
  refine List.Nodup.map_on ?_ (List.Nodup.filter _ h)
  intro x hx y hy hxy
  have hx' := (List.mem_filter.mp hx).2
  have hy' := (List.mem_filter.mp hy).2
  rw [child_eq_parent_snoc hx', child_eq_parent_snoc hy', hxy]

-- ---------------------------------------------------------------------------
-- C5: the category resolver
-- ---------------------------------------------------------------------------

theorem firstDotIdx_eq_none_iff {cs : List Char} :
    firstDotIdx cs = none ↔ '.' ∉ cs := by
  induction cs with
  | nil => simp [firstDotIdx]
  | cons c cs ih =>
    by_cases hc : c = '.'
    · subst hc
      simp [firstDotIdx]
    · simp [firstDotIdx, hc, ih, Ne.symm hc]

theorem firstDotIdx_append_not_mem {l r : List Char} (hl : '.' ∉ l) :
    firstDotIdx (l ++ '.' :: r) = some l.length := by
  induction l with
  | nil => simp [firstDotIdx]
  | cons c l ih =>
    have hc : ¬ c = '.' := fun h => hl (h ▸ List.mem_cons_self c l)
    have hl' : '.' ∉ l := fun h => hl (List.mem_cons_of_mem c h)
    simp [firstDotIdx, hc, ih hl']

theorem pySuffix_of_no_dot {name : String} (h : '.' ∉ name.toList) :
    pySuffix name = "" := by
  have h0 : firstDotIdx name.data.reverse = none :=
    firstDotIdx_eq_none_iff.mpr (by simpa [String.toList] using h)
  simp [pySuffix, pySplitExt, lastDotPos, String.toList, h0]

theorem extOf_of_no_dot {name : String} (h : '.' ∉ name.toList) :
    extOf name = "" := by
  rw [extOf, pySuffix_of_no_dot h]
  rfl

theorem charLower_dot : charLower '.' = '.' := by decide

theorem charLower_ne_dot {c : Char} (h : c ≠ '.') : charLower c ≠ '.' := by
  unfold charLower
  by_cases hc : 65 ≤ c.toNat ∧ c.toNat ≤ 90
  · rw [if_pos hc]
    intro heq
    have hv : (c.toNat + 32).isValidChar := Or.inl (by omega)
    have : (Char.ofNat (c.toNat + 32)).toNat = c.toNat + 32 := by
      unfold Char.ofNat
      rw [dif_pos hv]
      rfl
    rw [heq] at this
    have hdot : ('.' : Char).toNat = 46 := by decide
    omega
  · rwa [if_neg hc]

/-- Splitting a name at its genuinely last dot: when the part before the dot
and the part after are non-empty and the part after contains no further dot,
the extracted suffix is the dot plus that part. -/
theorem pySuffix_split {s t : String} (hs : s ≠ "") (ht : t ≠ "")
    (hd : '.' ∉ t.toList) : pySuffix (s ++ "." ++ t) = String.mk ('.' :: t.toList) := by
  have hsl : s.toList ≠ [] := by
    intro h
    apply hs
    cases s with
    | mk data => simpa [String.toList] using congrArg String.mk h
  have htl : t.toList ≠ [] := by
    intro h
    apply ht
    cases t with
    | mk data => simpa [String.toList] using congrArg String.mk h
  have hdata : (s ++ "." ++ t).toList = s.toList ++ '.' :: t.toList := by
    show (s ++ "." ++ t).data = s.data ++ '.' :: t.data
    rw [String.data_append, String.data_append, List.append_assoc]
    rfl
  have hrev : (s.toList ++ '.' :: t.toList).reverse
      = t.toList.reverse ++ '.' :: s.toList.reverse := by
    simp
  have hnd : '.' ∉ t.toList.reverse := by simpa using hd
  have hfirst : firstDotIdx (s.toList ++ '.' :: t.toList).reverse
      = some t.toList.reverse.length := by
    rw [hrev]
    exact firstDotIdx_append_not_mem hnd
  have hlen : (s.toList ++ '.' :: t.toList).length
      = s.toList.length + 1 + t.toList.length := by
    simp
    omega
  have hpos : lastDotPos (s.toList ++ '.' :: t.toList) = some s.toList.length := by
    rw [lastDotPos, hfirst]
    simp only [Option.map_some', List.length_reverse, hlen, Option.some.injEq]
    omega
  have hslen : 0 < s.toList.length := List.length_pos.mpr hsl
  have htlen : 0 < t.toList.length := List.length_pos.mpr htl
  rw [pySuffix, pySplitExt]
  simp only [hdata, hpos]
  rw [if_pos (by constructor <;> omega)]
  simp only
  congr 1
  rw [List.drop_left]

theorem extOf_split {s t : String} (hs : s ≠ "") (ht : t ≠ "")
    (hd : '.' ∉ t.toList) : extOf (s ++ "." ++ t) = strLower t := by
  rw [extOf, pySuffix_split hs ht hd]
  rw [strLower, lstripDots, strLower]
  congr 1
  show List.dropWhile _ (List.map charLower ('.' :: t.toList)) = _
  rw [List.map_cons]
  rw [List.dropWhile_cons]
  rw [if_pos (by simp [charLower_dot])]
  cases hcs : t.toList with
  | nil => simp
  | cons c cs =>
    have hc : c ≠ '.' := by
      intro h
      apply hd
      rw [hcs, h]
      exact List.mem_cons_self _ _
    rw [List.map_cons, List.dropWhile_cons]
    rw [if_neg (by simp [charLower_ne_dot hc])]

/-- C5: the category resolver is a pure function of (filename, configuration):
the extension is the case-folded substring after the last dot (absent when
there is no dot or no proper extension); a recognized extension returns the
mapped category, any other filename returns the default category; in
particular `REPORT.TXT` maps to `Documents/Text` under `{txt: Documents/Text}`. -/
theorem C5_category_resolver (cfg : Config) (name : String) :
    (∀ v, cfg.fileCategories.lookup (extOf name) = some v →
      get_category_for_file cfg name = v)
    ∧ (cfg.fileCategories.lookup (extOf name) = none →
      get_category_for_file cfg name = cfg.defaultCategory)
    ∧ (∀ s t : String, s ≠ "" → t ≠ "" → '.' ∉ t.toList →
      extOf (s ++ "." ++ t) = strLower t)
    ∧ ('.' ∉ name.toList → extOf name = "")
    ∧ get_category_for_file defaultConfig "REPORT.TXT" = "Documents/Text" := by
  refine ⟨?_, ?_, ?_, ?_, ?_⟩
  · intro v hv
    rw [get_category_for_file, hv]
    rfl
  · intro hv
    rw [get_category_for_file, hv]
    rfl
  · intro s t hs ht hd
    exact extOf_split hs ht hd
  · intro h
    exact extOf_of_no_dot h
  · decide

-- ---------------------------------------------------------------------------
-- C6: the unique-name generator
-- ---------------------------------------------------------------------------

theorem uniqGo_finds (fs : FS) (parent : FPath) (stem sfx : String) (orig : FPath) :
    ∀ fuel c n, c ≤ n → n ≤ 10000 →
      fs.existsP (parent ++ [candName stem sfx n]) = false →
      (∀ m, c ≤ m → m < n → fs.existsP (parent ++ [candName stem sfx m]) = true) →
      n + 1 ≤ c + fuel →
      uniqGo fs parent stem sfx orig c fuel = parent ++ [candName stem sfx n] := by
  intro fuel
  induction fuel with
  | zero =>
    intro c n hcn _ _ _ hfuel
    omega
  | succ fuel ih =>
    intro c n hcn hn hfree hocc hfuel
    rw [uniqGo]
    by_cases hc : fs.existsP (parent ++ [candName stem sfx c]) = false
    · rw [if_pos hc]
      have : c = n := by
        by_contra hne
        have hlt : c < n := lt_of_le_of_ne hcn hne
        have := hocc c (le_refl c) hlt
        rw [this] at hc
        exact Bool.true_eq_false.mp hc
      rw [this]
    · rw [if_neg hc]
      have hcn' : c ≠ n := by
        intro h
        rw [h, hfree] at hc
        exact hc rfl
      have hlt : c < n := lt_of_le_of_ne hcn hcn'
      rw [if_neg (by omega)]
      exact ih (c + 1) n (by omega) hn hfree
        (fun m hm1 hm2 => hocc m (by omega) hm2) (by omega)

theorem uniqGo_exhaust (fs : FS) (parent : FPath) (stem sfx : String) (orig : FPath) :
    ∀ fuel c, 1 ≤ c → c + fuel = 10001 →
      (∀ m, c ≤ m → m ≤ 10000 → fs.existsP (parent ++ [candName stem sfx m]) = true) →
      uniqGo fs parent stem sfx orig c fuel = orig := by
  intro fuel
  induction fuel with
  | zero =>
    intro c _ _ _
    rw [uniqGo]
  | succ fuel ih =>
    intro c hc1 hcf hocc
    rw [uniqGo]
    have hc10000 : c ≤ 10000 := by omega
    have hce := hocc c (le_refl c) hc10000
    rw [if_neg (by rw [hce]; exact fun h => Bool.true_eq_false.mp h)]
    by_cases hlast : c + 1 > 10000
    · rw [if_pos hlast]
    · rw [if_neg hlast]
      exact ih (c + 1) (by omega) (by omega) (fun m hm1 hm2 => hocc m (by omega) hm2)

/-- C6: the unique-name generator returns the requested path unchanged when it
is unoccupied; otherwise it returns `{stem} ({n}){extension}` for the least
unoccupied `n ≥ 1`; the search tries at most counters 1..10000 and on
exhaustion falls back to the original colliding path. -/
theorem C6_unique_name (fs : FS) (target : FPath) :
    (fs.existsP target = false → generate_unique_filename fs target = target)
    ∧ (∀ n, fs.existsP target = true → 1 ≤ n → n ≤ 10000 →
        fs.existsP (target.dropLast
          ++ [candName (pyStem (lastName target)) (pySuffix (lastName target)) n]) = false →
        (∀ m, 1 ≤ m → m < n →
          fs.existsP (target.dropLast
            ++ [candName (pyStem (lastName target)) (pySuffix (lastName target)) m]) = true) →
        generate_unique_filename fs target
          = target.dropLast
            ++ [candName (pyStem (lastName target)) (pySuffix (lastName target)) n])
    ∧ (fs.existsP target = true →
        (∀ m, 1 ≤ m → m ≤ 10000 →
          fs.existsP (target.dropLast
            ++ [candName (pyStem (lastName target)) (pySuffix (lastName target)) m]) = true) →
        generate_unique_filename fs target = target) := by
  refine ⟨?_, ?_, ?_⟩
  · intro h
    rw [generate_unique_filename, if_pos h]
  · intro n hocc hn1 hn hfree hprev
    rw [generate_unique_filename, if_neg (by rw [hocc]; exact fun h => Bool.true_eq_false.mp h)]
    exact uniqGo_finds fs target.dropLast _ _ target 10000 1 n hn1 hn hfree
      (fun m hm1 hm2 => hprev m hm1 hm2) (by omega)
  · intro hocc hall
    rw [generate_unique_filename, if_neg (by rw [hocc]; exact fun h => Bool.true_eq_false.mp h)]
    exact uniqGo_exhaust fs target.dropLast _ _ target 10000 1 (le_refl 1) (by omega) hall

/-- Witness filesystem for C6: `out/test.txt` and `out/test (1).txt` exist. -/
def uniqFS : FS :=
  { dirs := [["out"]]
  , files := [["out", "test.txt"], ["out", "test (1).txt"]] }

theorem C6_witness :
    generate_unique_filename uniqFS ["out", "test.txt"] = ["out", "test (2).txt"] := by
  have h := (C6_unique_name uniqFS ["out", "test.txt"]).2.1 2 (by decide) (by decide)
    (by decide) (by decide)
    (by
      intro m h1 h2
      have hm : m = 1 := by omega
      subst hm
      decide)
  exact h.trans (by decide)

theorem C5_witness :
    get_category_for_file defaultConfig "REPORT.TXT" = "Documents/Text"
    ∧ extOf ("photo" ++ "." ++ "JPG") = strLower "JPG"
    ∧ strLower "JPG" = "jpg"
    ∧ extOf "README" = ""
    ∧ get_category_for_file defaultConfig "README" = "Miscellaneous/Other" := by
  refine ⟨(C5_category_resolver defaultConfig "README").2.2.2.2, ?_, by decide, ?_, ?_⟩
  · exact (C5_category_resolver defaultConfig "README").2.2.1 "photo" "JPG"
      (by decide) (by decide) (by decide)
  · exact (C5_category_resolver defaultConfig "README").2.2.2.1 (by decide)
  · exact (C5_category_resolver defaultConfig "README").2.1 (by decide)

-- ---------------------------------------------------------------------------
-- C1: the nested-output pre-flight check
-- ---------------------------------------------------------------------------

/-- Input tree for C1: directory `in` containing the file `doc.txt`. -/
def c1FS : FS :=
  { dirs := [["in"]], files := [["in", "doc.txt"]] }

/-- C1: evaluation of the code at the failing input.  An output path nested
inside the input path passes `validate_input_paths` (the `ValueError` raised
for the nested case is swallowed by the `except` clause of its own `try`
block), and the run then executes all phases, relocating `doc.txt` into the
nested output inside the input tree and reporting success — whereas an output
path equal to the input is rejected. -/
theorem C1_nested_output_accepted :
    validate_input_paths c1FS ["in"] (some ["in", "nested"])
      = .ok (["in"], ["in", "nested"])
    ∧ validate_input_paths c1FS ["in"] (some ["in"])
      = .error "ValueError: input == output"
    ∧ (sort_files defaultConfig c1FS ["in"] (some ["in", "nested"])
        false false [] []).validated = true
    ∧ (sort_files defaultConfig c1FS ["in"] (some ["in", "nested"])
        false false [] []).filesMoved = 1
    ∧ (sort_files defaultConfig c1FS ["in"] (some ["in", "nested"])
        false false [] []).fs.files
      = [["in", "nested", "Documents", "Text", "doc.txt"]]
    ∧ (sort_files defaultConfig c1FS ["in"] (some ["in", "nested"])
        false false [] []).success = true := by
  refine ⟨by rfl, by rfl, by decide, by decide, by decide, by decide⟩

-- ---------------------------------------------------------------------------
-- C4: application-bundle suffix and marker classification during discovery
-- ---------------------------------------------------------------------------

/-- Input tree for the C4 counterexample: `in` contains an empty directory
`Foo.app` and a file `x.txt`. -/
def appFS : FS :=
  { dirs := [["in"], ["in", "Foo.app"]], files := [["in", "x.txt"]] }

/-- C4 counterexample: a directory named `Foo.app` with no contents at all
satisfies the classifier, yet the discovery pass claims nothing, because
`identify_projects` only classifies a directory whose cached listing is
non-empty (`if dir_contents and ...`). -/
theorem C4_counterexample :
    is_project_or_app_folder defaultConfig ["in", "Foo.app"]
      (appFS.listdir ["in", "Foo.app"]) = true
    ∧ appFS.listdir ["in", "Foo.app"] = []
    ∧ identify_projects appFS defaultConfig ["in"] [] = [] := by
  refine ⟨by decide, by decide, by decide⟩

/-- When the discovery pass examines a directory that is not covered and whose
non-empty listing classifies it, the pass claims exactly that directory and
prunes descent beneath it. -/
theorem identifyGo_root_claim (fs : FS) (cfg : Config) (processed : List FPath)
    (p : FPath) (fuel : Nat) (hcov : coveredBy processed p = false)
    (hne : fs.listdir p ≠ [])
    (hcls : is_project_or_app_folder cfg p (fs.listdir p) = true) :
    identifyGo fs cfg processed (fuel + 1) p
      = [(p, p.dropLast ++ [AAP, lastName p])] := by
  rw [identifyGo]
  rw [if_neg (by simp [hcov])]
  rw [if_pos ⟨hne, hcls⟩]

/-- C4 (amended): whenever the discovery pass examines a directory that is not
covered by an earlier claim and whose listing is non-empty, a true classifier
verdict makes the pass record exactly that one relocation for the whole
subtree (descent is pruned); a name ending in a configured application-bundle
suffix forces a true verdict regardless of the listing, as does an immediate
child whose name is a configured project-file marker (such as `.git`). -/
theorem C4_amended (fs : FS) (cfg : Config) (processed : List FPath) (p : FPath)
    (fuel : Nat) :
    (coveredBy processed p = false → fs.listdir p ≠ [] →
      is_project_or_app_folder cfg p (fs.listdir p) = true →
      identifyGo fs cfg processed (fuel + 1) p = [(p, p.dropLast ++ [AAP, lastName p])])
    ∧ (∀ contents : List String, ∀ suf ∈ cfg.specialAppDirsAsFiles,
        strEndsWith (lastName p) suf = true →
        is_project_or_app_folder cfg p contents = true)
    ∧ (∀ contents : List String, ∀ m ∈ contents, m ∈ cfg.projectFileMarkers →
        is_project_or_app_folder cfg p contents = true) := by
  refine ⟨?_, ?_, ?_⟩
  · exact identifyGo_root_claim fs cfg processed p fuel
  · intro contents suf hsuf hends
    rw [is_project_or_app_folder, Bool.or_eq_true]
    exact Or.inl (List.any_eq_true.mpr ⟨suf, hsuf, hends⟩)
  · intro contents m hm hmark
    rw [is_project_or_app_folder, Bool.or_eq_true]
    refine Or.inr (List.any_eq_true.mpr ⟨m, hm, ?_⟩)
    rw [Bool.or_eq_true]
    exact Or.inl (contains_iff.mpr hmark)

/-- Input tree for the C4 witness: `in/Bar.app` holds one file, and `in/repo`
holds a `.git` marker file. -/
def appFS2 : FS :=
  { dirs := [["in"], ["in", "Bar.app"]]
  , files := [["in", "Bar.app", "payload"], ["in", "x.txt"]] }

theorem C4_witness :
    identifyGo appFS2 defaultConfig [] 1 ["in", "Bar.app"]
      = [(["in", "Bar.app"], ["in", AAP, "Bar.app"])]
    ∧ is_project_or_app_folder defaultConfig ["in", "Bar.app"] ["payload"] = true
    ∧ is_project_or_app_folder defaultConfig ["in", "repo"] [".git", "src"] = true := by
  refine ⟨?_, ?_, ?_⟩
  · exact (C4_amended appFS2 defaultConfig [] ["in", "Bar.app"] 0).1
      (by decide) (by decide) (by decide)
  · exact (C4_amended appFS2 defaultConfig [] ["in", "Bar.app"] 0).2.1
      ["payload"] ".app" (by decide) (by decide)
  · exact (C4_amended appFS2 defaultConfig [] ["in", "repo"] 0).2.2
      [".git", "src"] ".git" (by decide) (by decide)

-- ---------------------------------------------------------------------------
-- C10: the input root itself classifying as a project
-- ---------------------------------------------------------------------------

/-- Input tree for the C10 counterexample: the input root `Foo.app` is empty. -/
def rootAppFS : FS :=
  { dirs := [["Foo.app"]], files := [] }

/-- C10 counterexample: the empty input root `Foo.app` satisfies the project
classifier, yet the discovery pass claims nothing and the run relocates
nothing (the filesystem is unchanged). -/
theorem C10_counterexample :
    is_project_or_app_folder defaultConfig ["Foo.app"]
      (rootAppFS.listdir ["Foo.app"]) = true
    ∧ (sort_files defaultConfig rootAppFS ["Foo.app"] (some ["out"])
        false false [] []).projects = []
    ∧ (sort_files defaultConfig rootAppFS ["Foo.app"] (some ["out"])
        false false [] []).projectsMoved = 0
    ∧ (sort_files defaultConfig rootAppFS ["Foo.app"] (some ["out"])
        false false [] []).fs = rootAppFS := by
  refine ⟨by decide, by decide, by decide, by decide⟩

/-- C10 (amended): when the input root has a non-empty listing and satisfies
the project classifier, the discovery pass claims the root as the single
project, and a real run whose root move succeeds relocates the entire input
tree as one unit to `<output>/Applications_And_Projects/<inputName>`, with no
per-file categorization at all; an input root with an empty listing is never
claimed, even when it satisfies the classifier. -/
theorem C10_amended (cfg : Config) (fs : FS) (inp : FPath) (outOpt : Option FPath)
    (out : FPath) (delEmpty : Bool) (failProjects failFiles : List FPath)
    (hval : validate_input_paths fs inp outOpt = .ok (inp, out))
    (hne : fs.listdir inp ≠ [])
    (hcls : is_project_or_app_folder cfg inp (fs.listdir inp) = true)
    (hfail : inp ∉ failProjects) :
    (sort_files cfg fs inp outOpt false delEmpty failProjects failFiles).projects
      = [(inp, inp.dropLast ++ [AAP, lastName inp])]
    ∧ (sort_files cfg fs inp outOpt false delEmpty failProjects failFiles).processed = [inp]
    ∧ (sort_files cfg fs inp outOpt false delEmpty failProjects failFiles).projectsMoved = 1
    ∧ (sort_files cfg fs inp outOpt false delEmpty failProjects failFiles).filesMoved = 0
    ∧ (sort_files cfg fs inp outOpt false delEmpty failProjects failFiles).decisions = []
    ∧ (sort_files cfg fs inp outOpt false delEmpty failProjects failFiles).errors = 0
    ∧ (sort_files cfg fs inp outOpt false delEmpty failProjects failFiles).success = true
    ∧ (sort_files cfg fs inp outOpt false delEmpty failProjects failFiles).fs
      = (fs.mkdirParents (out ++ [AAP, lastName inp]).dropLast).moveTree inp
          (out ++ [AAP, lastName inp])
    ∧ (∀ q ∈ fs.files, inp <+: q →
        (out ++ [AAP, lastName inp]) ++ q.drop inp.length
          ∈ (sort_files cfg fs inp outOpt false delEmpty failProjects failFiles).fs.files) := by
  have hcov : coveredBy [] inp = false := by simp [coveredBy]
  have hproj : identify_projects fs cfg inp []
      = [(inp, inp.dropLast ++ [AAP, lastName inp])] :=
    identifyGo_root_claim fs cfg [] inp fs.maxDepth hcov hne hcls
  have hcont : failProjects.contains inp = false :=
    Bool.eq_false_iff.mpr (fun h => hfail (contains_iff.mp h))
  have hdrop : (inp.dropLast ++ [AAP, lastName inp]).drop inp.dropLast.length
      = [AAP, lastName inp] := List.drop_left _ _
  have hmove : move_project fs inp (inp.dropLast ++ [AAP, lastName inp]) out false
        failProjects
      = ((fs.mkdirParents (out ++ [AAP, lastName inp]).dropLast).moveTree inp
          (out ++ [AAP, lastName inp]), true) := by
    rw [move_project]
    rw [if_neg (by simp)]
    rw [if_neg (by simp [hfail])]
    rw [hdrop]
  have hst1 : phase1Run cfg fs inp out false failProjects
      = ⟨(fs.mkdirParents (out ++ [AAP, lastName inp]).dropLast).moveTree inp
          (out ++ [AAP, lastName inp]), [inp], 1, 0, 1⟩ := by
    rw [phase1Run, hproj, List.foldl_cons, List.foldl_nil, phase1Step, hmove]
    simp
  have hcovInp : coveredBy [inp] inp = true := by
    simp [coveredBy, List.isPrefixOf_iff_prefix]
  have hrun : sort_files cfg fs inp outOpt false delEmpty failProjects failFiles
      = sortPhases cfg fs inp out false delEmpty failProjects failFiles :=
    sort_files_eq_sortPhases hval
  have hph2 : ∀ st : P2State,
      phase2Go cfg out false delEmpty failFiles [inp] (fs.maxDepth + 1) inp st = st := by
    intro st
    rw [phase2Go]
    rw [if_pos hcovInp]
  rw [hrun, sortPhases]
  simp only [hproj, hst1, hph2]
  have hclean : (if delEmpty then
        cleanup_empty_directories
          ((fs.mkdirParents (out ++ [AAP, lastName inp]).dropLast).moveTree inp
            (out ++ [AAP, lastName inp])) inp [] false
      else (((fs.mkdirParents (out ++ [AAP, lastName inp]).dropLast).moveTree inp
            (out ++ [AAP, lastName inp])), 0))
      = (((fs.mkdirParents (out ++ [AAP, lastName inp]).dropLast).moveTree inp
            (out ++ [AAP, lastName inp])), 0) := by
    cases delEmpty
    · rfl
    · rfl
  rw [hclean]
  refine ⟨by trivial, by trivial, by trivial, by trivial, by trivial, by trivial,
    by trivial, by trivial, ?_⟩
  intro q hq hpre
  show (out ++ [AAP, lastName inp]) ++ q.drop inp.length
      ∈ ((fs.mkdirParents (out ++ [AAP, lastName inp]).dropLast).moveTree inp
          (out ++ [AAP, lastName inp])).files
  rw [FS.moveTree]
  simp only [FS.mkdirParents]
  refine List.mem_map.mpr ⟨q, hq, ?_⟩
  rw [if_pos (List.isPrefixOf_iff_prefix.mpr hpre)]
  rfl

/-- Input tree for the C10 witness: the root `in` directly contains `.git`. -/
def rootGitFS : FS :=
  { dirs := [["in"]], files := [["in", ".git"], ["in", "code.py"]] }

theorem C10_witness :
    (sort_files defaultConfig rootGitFS ["in"] (some ["out"]) false false [] []).projects
      = [(["in"], [AAP, "in"])]
    ∧ (sort_files defaultConfig rootGitFS ["in"] (some ["out"]) false false [] []).filesMoved
      = 0
    ∧ (sort_files defaultConfig rootGitFS ["in"] (some ["out"]) false false [] []).decisions
      = []
    ∧ ["out", AAP, "in"] ++ ["code.py"]
      ∈ (sort_files defaultConfig rootGitFS ["in"] (some ["out"]) false false [] []).fs.files := by
  have h := C10_amended defaultConfig rootGitFS ["in"] (some ["out"]) ["out"] false [] []
    (by rfl) (by decide) (by decide) (by decide)
  refine ⟨h.1.trans (by decide), h.2.2.2.1, h.2.2.2.2.1, ?_⟩
  have h9 := h.2.2.2.2.2.2.2.2 ["in", "code.py"] (by decide)
    ⟨["code.py"], rfl⟩
  simpa using h9

-- ---------------------------------------------------------------------------
-- C2: failed project moves
-- ---------------------------------------------------------------------------

/-- Whether the move of a given project succeeds: always in dry-run, and
otherwise exactly when no fault is injected for its source. -/
def projOk (dryRun : Bool) (failProjects : List FPath) (pr : FPath × FPath) : Bool :=
  dryRun || ! failProjects.contains pr.1

theorem move_project_flag (fs : FS) (src dst outputDir : FPath) (dryRun : Bool)
    (failProjects : List FPath) :
    (move_project fs src dst outputDir dryRun failProjects).2
      = projOk dryRun failProjects (src, dst)
    ∧ ((move_project fs src dst outputDir dryRun failProjects).2 = false →
        (move_project fs src dst outputDir dryRun failProjects).1 = fs) := by
  rw [move_project, projOk]
  by_cases hd : dryRun
  · subst hd
    simp
  · have hd' : dryRun = false := Bool.eq_false_iff.mpr hd
    subst hd'
    by_cases hc : failProjects.contains src = true
    · have hmem : src ∈ failProjects := contains_iff.mp hc
      simp [hc, hmem]
    · have hc' : failProjects.contains src = false := Bool.eq_false_iff.mpr hc
      have hmem : src ∉ failProjects := fun h => hc (contains_iff.mpr h)
      simp [hc', hmem]

theorem phase1_fold (outputDir : FPath) (dryRun : Bool) (failProjects : List FPath) :
    ∀ (l : List (FPath × FPath)) (st : P1State),
      (l.foldl (phase1Step outputDir dryRun failProjects) st).processed
        = st.processed ++ (l.filter (projOk dryRun failProjects)).map Prod.fst
      ∧ (l.foldl (phase1Step outputDir dryRun failProjects) st).errors
        = st.errors + (l.filter (fun pr => ! projOk dryRun failProjects pr)).length
      ∧ (l.foldl (phase1Step outputDir dryRun failProjects) st).projectsMoved
        = st.projectsMoved + (l.filter (projOk dryRun failProjects)).length
      ∧ (l.foldl (phase1Step outputDir dryRun failProjects) st).processedItems
        = st.processedItems + l.length := by
  intro l
  induction l with
  | nil => intro st; simp
  | cons pr rest ih =>
    intro st
    rw [List.foldl_cons]
    have hflag := (move_project_flag st.fs pr.1 pr.2 outputDir dryRun failProjects).1
    by_cases hok : projOk dryRun failProjects pr = true
    · have hstep : phase1Step outputDir dryRun failProjects st pr
          = { st with
              fs := (move_project st.fs pr.1 pr.2 outputDir dryRun failProjects).1
              processed := st.processed ++ [pr.1]
              projectsMoved := st.projectsMoved + 1
              processedItems := st.processedItems + 1 } := by
        rw [phase1Step]
        rw [if_pos (by rw [hflag]; exact hok)]
      rw [hstep]
      rcases ih _ with ⟨h1, h2, h3, h4⟩
      refine ⟨?_, ?_, ?_, ?_⟩
      · rw [h1]
        simp [List.filter_cons, hok]
      · rw [h2]
        simp [List.filter_cons, hok]
      · rw [h3]
        simp [List.filter_cons, hok]
        omega
      · rw [h4]
        simp
        omega
    · have hok' : projOk dryRun failProjects pr = false := Bool.eq_false_iff.mpr hok
      have hstep : phase1Step outputDir dryRun failProjects st pr
          = { st with
              fs := (move_project st.fs pr.1 pr.2 outputDir dryRun failProjects).1
              errors := st.errors + 1
              processedItems := st.processedItems + 1 } := by
        rw [phase1Step]
        rw [if_neg (by rw [hflag, hok']; exact Bool.false_ne_true)]
      rw [hstep]
      rcases ih _ with ⟨h1, h2, h3, h4⟩
      refine ⟨?_, ?_, ?_, ?_⟩
      · rw [h1]
        simp [List.filter_cons, hok']
      · rw [h2]
        simp [List.filter_cons, hok']
        omega
      · rw [h3]
        simp [List.filter_cons, hok']
      · rw [h4]
        simp
        omega

/-- Input tree for C2: `in/proj` is a project (it contains `.git`) whose move
is made to fail. -/
def projFS : FS :=
  { dirs := [["in"], ["in", "proj"]]
  , files := [["in", "proj", ".git"], ["in", "proj", "main.py"]] }

/-- The C2 run: the move of `in/proj` fails. -/
def projFailRun : RunResult :=
  sort_files defaultConfig projFS ["in"] (some ["out"]) false false [["in", "proj"]] []

/-- C2 counterexample: when the move of project `in/proj` fails, the failure
is counted and the run continues, but the files inside the failed project are
then moved individually by the file-relocation pass: `in/proj/main.py` ends
up alone under the output's default category, so the project unit is split. -/
theorem C2_counterexample :
    projFailRun.errors = 1
    ∧ projFailRun.success = false
    ∧ ["in", "proj"] ∈ projFailRun.fs.dirs
    ∧ (["in", "proj", "main.py"], ["out", "Miscellaneous", "Other", "main.py"])
        ∈ projFailRun.decisions
    ∧ ["out", "Miscellaneous", "Other", "main.py"] ∈ projFailRun.fs.files
    ∧ ["in", "proj", "main.py"] ∉ projFailRun.fs.files := by
  refine ⟨by decide, by decide, by decide, by decide, by decide, by decide⟩

/-- C2 (amended): a failed project move is counted as one error and does not
stop the phase-1 loop (every project is still processed, and successes are
still recorded); the failed source is exactly what is missing from the
claimed set, which afterwards holds precisely the successfully moved sources.
Because the failed source is absent from the claimed set, the file-relocation
pass descends into it and relocates its contents file by file, as the
concrete failed run shows: the failed project is split. -/
theorem C2_amended (outputDir : FPath) (dryRun : Bool) (failProjects : List FPath)
    (l : List (FPath × FPath)) (st : P1State) :
    ((l.foldl (phase1Step outputDir dryRun failProjects) st).processed
        = st.processed ++ (l.filter (projOk dryRun failProjects)).map Prod.fst
      ∧ (l.foldl (phase1Step outputDir dryRun failProjects) st).errors
        = st.errors + (l.filter (fun pr => ! projOk dryRun failProjects pr)).length
      ∧ (l.foldl (phase1Step outputDir dryRun failProjects) st).processedItems
        = st.processedItems + l.length)
    ∧ (projFailRun.errors = 1
      ∧ ["in", "proj"] ∈ projFailRun.fs.dirs
      ∧ projFailRun.processed = []
      ∧ ["out", "Miscellaneous", "Other", "main.py"] ∈ projFailRun.fs.files) := by
  rcases phase1_fold outputDir dryRun failProjects l st with ⟨h1, h2, _, h4⟩
  exact ⟨⟨h1, h2, h4⟩, by decide, by decide, by decide, by decide⟩

-- ---------------------------------------------------------------------------
-- C3 counterexample: dry-run disambiguators
-- ---------------------------------------------------------------------------

/-- Input tree for C3: two same-named files `in/a/file.txt` and
`in/b/file.txt`. -/
def twinFS : FS :=
  { dirs := [["in"], ["in", "a"], ["in", "b"]]
  , files := [["in", "a", "file.txt"], ["in", "b", "file.txt"]] }

def twinDry : RunResult :=
  sort_files defaultConfig twinFS ["in"] (some ["out"]) true false [] []

def twinReal : RunResult :=
  sort_files defaultConfig twinFS ["in"] (some ["out"]) false false [] []

/-- C3 counterexample: on two same-named source files the dry run computes
destination `out/Documents/Text/file.txt` for both (nothing is ever created,
so no collision is seen), while the real run disambiguates the second to
`file (1).txt`: the per-file destination paths differ between the two modes. -/
theorem C3_counterexample :
    twinDry.projects = twinReal.projects
    ∧ twinDry.decisions.map Prod.fst = twinReal.decisions.map Prod.fst
    ∧ twinDry.decisions.map Prod.snd
      = [["out", "Documents", "Text", "file.txt"], ["out", "Documents", "Text", "file.txt"]]
    ∧ twinReal.decisions.map Prod.snd
      = [["out", "Documents", "Text", "file.txt"], ["out", "Documents", "Text", "file (1).txt"]]
    ∧ twinDry.decisions ≠ twinReal.decisions := by
  refine ⟨by decide, by decide, by decide, by decide, by decide⟩

-- ---------------------------------------------------------------------------
-- C9: error aggregation and the overall result
-- ---------------------------------------------------------------------------

/-- Whether a recorded file decision corresponds to a failed move: only real
runs fail, exactly on the injected fault set. -/
def fileFailed (dryRun : Bool) (failFiles : List FPath) (dec : FPath × FPath) : Bool :=
  !dryRun && failFiles.contains dec.1

theorem categorize_flag (cfg : Config) (fs : FS) (filePath outputDir : FPath)
    (dryRun : Bool) (failFiles : List FPath) :
    (categorize_and_move_file cfg fs filePath outputDir dryRun failFiles).2.1
      = !(fileFailed dryRun failFiles (filePath, outputDir)) := by
  rw [categorize_and_move_file, fileFailed]
  by_cases hd : dryRun
  · subst hd
    simp
  · have hd' : dryRun = false := Bool.eq_false_iff.mpr hd
    subst hd'
    by_cases hc : filePath ∈ failFiles
    · have : failFiles.contains filePath = true := contains_iff.mpr hc
      simp [hc, this]
    · have : failFiles.contains filePath = false :=
        Bool.eq_false_iff.mpr (fun h => hc (contains_iff.mp h))
      simp [hc, this]

theorem filter_length_split {α : Type} (p : α → Bool) (l : List α) :
    (l.filter p).length + (l.filter (fun a => ! p a)).length = l.length := by
  induction l with
  | nil => simp
  | cons a l ih =>
    by_cases ha : p a = true
    · simp [List.filter_cons, ha]
      omega
    · have ha' : p a = false := Bool.eq_false_iff.mpr ha
      simp [List.filter_cons, ha']
      omega

theorem processFilesIn_delta (cfg : Config) (outputDir : FPath) (dryRun : Bool)
    (failFiles processed : List FPath) (p : FPath) :
    ∀ (names : List String) (st : P2State),
      ∃ Δ : List (FPath × FPath),
        (processFilesIn cfg outputDir dryRun failFiles processed p names st).decisions
          = st.decisions ++ Δ
        ∧ (processFilesIn cfg outputDir dryRun failFiles processed p names st).errors
          = st.errors + (Δ.filter (fileFailed dryRun failFiles)).length
        ∧ (processFilesIn cfg outputDir dryRun failFiles processed p names st).filesMoved
          = st.filesMoved + (Δ.filter (fun d => ! fileFailed dryRun failFiles d)).length
        ∧ (processFilesIn cfg outputDir dryRun failFiles processed p names st).candidates
          = st.candidates := by
  intro names
  induction names with
  | nil =>
    intro st
    exact ⟨[], by simp [processFilesIn], by simp [processFilesIn], by simp [processFilesIn],
      by simp [processFilesIn]⟩
  | cons name rest ih =>
    intro st
    simp only [processFilesIn] at ih ⊢
    rw [List.foldl_cons]
    by_cases hskip : (processed.any
        (fun q => q.isPrefixOf (p ++ [name]) && ¬ q = (p ++ [name]))) = true
    · rw [if_pos hskip]
      exact ih st
    · rw [if_neg hskip]
      set res := categorize_and_move_file cfg st.fs (p ++ [name]) outputDir dryRun failFiles
        with hres
    -- the flag of the categorize call decides which counter is bumped
      have hflag : res.2.1 = !(fileFailed dryRun failFiles (p ++ [name], res.2.2)) := by
        rw [hres]
        rw [categorize_flag cfg st.fs (p ++ [name]) outputDir dryRun failFiles]
        rw [fileFailed, fileFailed]
      obtain ⟨Δ, h1, h2, h3, h4⟩ := ih
        { st with
          fs := res.1
          decisions := st.decisions ++ [(p ++ [name], res.2.2)]
          filesMoved := st.filesMoved + (if res.2.1 then 1 else 0)
          errors := st.errors + (if res.2.1 then 0 else 1)
          processedItems := st.processedItems + 1 }
      refine ⟨(p ++ [name], res.2.2) :: Δ, ?_, ?_, ?_, ?_⟩
      · rw [h1]
        simp
      · rw [h2]
        simp only [List.filter_cons]
        by_cases hf : fileFailed dryRun failFiles (p ++ [name], res.2.2) = true
        · have : res.2.1 = false := by rw [hflag, hf]; rfl
          simp [hf, this]
          omega
        · have hf' : fileFailed dryRun failFiles (p ++ [name], res.2.2) = false :=
            Bool.eq_false_iff.mpr hf
          have : res.2.1 = true := by rw [hflag, hf']; rfl
          simp [hf', this]
      · rw [h3]
        simp only [List.filter_cons]
        by_cases hf : fileFailed dryRun failFiles (p ++ [name], res.2.2) = true
        · have : res.2.1 = false := by rw [hflag, hf]; rfl
          simp [hf, this]
        · have hf' : fileFailed dryRun failFiles (p ++ [name], res.2.2) = false :=
            Bool.eq_false_iff.mpr hf
          have : res.2.1 = true := by rw [hflag, hf']; rfl
          simp [hf', this]
          omega
      · rw [h4]

theorem phase2Go_delta (cfg : Config) (outputDir : FPath) (dryRun delEmpty : Bool)
    (failFiles processed : List FPath) :
    ∀ (fuel : Nat) (p : FPath) (st : P2State),
      ∃ Δ : List (FPath × FPath),
        (phase2Go cfg outputDir dryRun delEmpty failFiles processed fuel p st).decisions
          = st.decisions ++ Δ
        ∧ (phase2Go cfg outputDir dryRun delEmpty failFiles processed fuel p st).errors
          = st.errors + (Δ.filter (fileFailed dryRun failFiles)).length
        ∧ (phase2Go cfg outputDir dryRun delEmpty failFiles processed fuel p st).filesMoved
          = st.filesMoved + (Δ.filter (fun d => ! fileFailed dryRun failFiles d)).length := by
  intro fuel
  induction fuel with
  | zero =>
    intro p st
    exact ⟨[], by simp [phase2Go], by simp [phase2Go], by simp [phase2Go]⟩
  | succ fuel ih =>
    intro p st
    rw [phase2Go]
    by_cases hcov : coveredBy processed p = true
    · rw [if_pos hcov]
      exact ⟨[], by simp, by simp, by simp⟩
    · rw [if_neg hcov]
      set st1 := if delEmpty then { st with candidates := st.candidates ++ [p] } else st
        with hst1
      have hst1dec : st1.decisions = st.decisions ∧ st1.errors = st.errors
          ∧ st1.filesMoved = st.filesMoved := by
        rw [hst1]
        cases delEmpty
        · exact ⟨rfl, rfl, rfl⟩
        · exact ⟨rfl, rfl, rfl⟩
      obtain ⟨Δ₀, g1, g2, g3, _⟩ := processFilesIn_delta cfg outputDir dryRun failFiles
        processed p (st1.fs.childFileNames p) st1
      set st2 := processFilesIn cfg outputDir dryRun failFiles processed p
        (st1.fs.childFileNames p) st1 with hst2
      -- now the fold over the subdirectories
      have hfold : ∀ (l : List String) (s : P2State),
          ∃ Δ : List (FPath × FPath),
            (l.foldl (fun s d =>
              phase2Go cfg outputDir dryRun delEmpty failFiles processed fuel (p ++ [d]) s)
              s).decisions = s.decisions ++ Δ
            ∧ (l.foldl (fun s d =>
                phase2Go cfg outputDir dryRun delEmpty failFiles processed fuel (p ++ [d]) s)
                s).errors = s.errors + (Δ.filter (fileFailed dryRun failFiles)).length
            ∧ (l.foldl (fun s d =>
                phase2Go cfg outputDir dryRun delEmpty failFiles processed fuel (p ++ [d]) s)
                s).filesMoved
              = s.filesMoved + (Δ.filter (fun d => ! fileFailed dryRun failFiles d)).length := by
        intro l
        induction l with
        | nil => intro s; exact ⟨[], by simp, by simp, by simp⟩
        | cons d rest ihl =>
          intro s
          rw [List.foldl_cons]
          obtain ⟨Δ₁, k1, k2, k3⟩ := ih (p ++ [d]) s
          obtain ⟨Δ₂, m1, m2, m3⟩ := ihl
            (phase2Go cfg outputDir dryRun delEmpty failFiles processed fuel (p ++ [d]) s)
          refine ⟨Δ₁ ++ Δ₂, ?_, ?_, ?_⟩
          · rw [m1, k1, List.append_assoc]
          · rw [m2, k2, List.filter_append, List.length_append]
            omega
          · rw [m3, k3, List.filter_append, List.length_append]
            omega
      obtain ⟨Δ₁, k1, k2, k3⟩ := hfold (st1.fs.childDirNames p) st2
      refine ⟨Δ₀ ++ Δ₁, ?_, ?_, ?_⟩
      · rw [k1, g1, hst1dec.1, List.append_assoc]
      · rw [k2, g2, hst1dec.2.1, List.filter_append, List.length_append]
        omega
      · rw [k3, g3, hst1dec.2.2, List.filter_append, List.length_append]
        omega

theorem phase1Run_spec (cfg : Config) (fs : FS) (inp out : FPath) (dryRun : Bool)
    (failProjects : List FPath) :
    (phase1Run cfg fs inp out dryRun failProjects).processed
      = ((identify_projects fs cfg inp []).filter (projOk dryRun failProjects)).map Prod.fst
    ∧ (phase1Run cfg fs inp out dryRun failProjects).errors
      = ((identify_projects fs cfg inp []).filter
          (fun pr => ! projOk dryRun failProjects pr)).length
    ∧ (phase1Run cfg fs inp out dryRun failProjects).projectsMoved
      = ((identify_projects fs cfg inp []).filter (projOk dryRun failProjects)).length := by
  obtain ⟨h1, h2, h3, _⟩ := phase1_fold out dryRun failProjects
    (identify_projects fs cfg inp []) ⟨fs, [], 0, 0, 0⟩
  refine ⟨?_, ?_, ?_⟩
  · exact h1.trans (by simp)
  · exact h2.trans (by simp)
  · exact h3.trans (by simp)

/-- C9: `sort_files` reports success exactly when the total error counter is
zero; the error counter is the number of failed project moves plus the number
of failed file moves; every identified project and every recorded file
decision is processed (the counters partition the item lists), so per-item
failures never abort the run. -/
theorem C9_success_iff_no_errors (cfg : Config) (fs : FS) (inpStr : FPath)
    (outOpt : Option FPath) (dryRun delEmpty : Bool) (failProjects failFiles : List FPath)
    (inp out : FPath)
    (hval : validate_input_paths fs inpStr outOpt = .ok (inp, out)) :
    ((sort_files cfg fs inpStr outOpt dryRun delEmpty failProjects failFiles).success = true
      ↔ (sort_files cfg fs inpStr outOpt dryRun delEmpty failProjects failFiles).errors = 0)
    ∧ (sort_files cfg fs inpStr outOpt dryRun delEmpty failProjects failFiles).errors
      = ((sort_files cfg fs inpStr outOpt dryRun delEmpty failProjects failFiles).projects.filter
          (fun pr => ! projOk dryRun failProjects pr)).length
        + ((sort_files cfg fs inpStr outOpt dryRun delEmpty failProjects failFiles).decisions.filter
            (fileFailed dryRun failFiles)).length
    ∧ (sort_files cfg fs inpStr outOpt dryRun delEmpty failProjects failFiles).projectsMoved
      = ((sort_files cfg fs inpStr outOpt dryRun delEmpty failProjects failFiles).projects.filter
          (projOk dryRun failProjects)).length
    ∧ (sort_files cfg fs inpStr outOpt dryRun delEmpty failProjects failFiles).filesMoved
      = ((sort_files cfg fs inpStr outOpt dryRun delEmpty failProjects failFiles).decisions.filter
          (fun d => ! fileFailed dryRun failFiles d)).length
    ∧ (sort_files cfg fs inpStr outOpt dryRun delEmpty failProjects failFiles).projectsMoved
        + ((sort_files cfg fs inpStr outOpt dryRun delEmpty failProjects failFiles).projects.filter
            (fun pr => ! projOk dryRun failProjects pr)).length
      = (sort_files cfg fs inpStr outOpt dryRun delEmpty failProjects failFiles).projects.length := by
  rw [sort_files_eq_sortPhases hval, sortPhases]
  obtain ⟨p1, p2, p3⟩ := phase1Run_spec cfg fs inp out dryRun failProjects
  obtain ⟨Δ, g1, g2, g3⟩ := phase2Go_delta cfg out dryRun delEmpty failFiles
    (phase1Run cfg fs inp out dryRun failProjects).processed (fs.maxDepth + 1) inp
    ⟨(phase1Run cfg fs inp out dryRun failProjects).fs, 0, 0,
      (phase1Run cfg fs inp out dryRun failProjects).processedItems, [], []⟩
  rw [List.nil_append] at g1
  refine ⟨?_, ?_, ?_, ?_, ?_⟩
  · simp only [beq_iff_eq]
  · simp only [g2, g1, p2]
    omega
  · simp only [p3]
  · simp only [g3, g1]
    omega
  · simp only [p3]
    have := filter_length_split (projOk dryRun failProjects) (identify_projects fs cfg inp [])
    omega

/-- Witness filesystem for C9: one file whose move fails. -/
def c9FS : FS :=
  { dirs := [["in"]], files := [["in", "a.txt"]] }

theorem C9_witness :
    ((sort_files defaultConfig c9FS ["in"] (some ["out"]) false false []
        [["in", "a.txt"]]).success = true
      ↔ (sort_files defaultConfig c9FS ["in"] (some ["out"]) false false []
          [["in", "a.txt"]]).errors = 0)
    ∧ (sort_files defaultConfig c9FS ["in"] (some ["out"]) false false []
        [["in", "a.txt"]]).errors = 1
    ∧ (sort_files defaultConfig c9FS ["in"] (some ["out"]) false false []
        [["in", "a.txt"]]).success = false := by
  refine ⟨(C9_success_iff_no_errors defaultConfig c9FS ["in"] (some ["out"]) false false
    [] [["in", "a.txt"]] ["in"] ["out"] (by rfl)).1, by decide, by decide⟩

-- ---------------------------------------------------------------------------
-- C7: the claimed-set invariant
-- ---------------------------------------------------------------------------

theorem childClaim_eq_some {fs : FS} {cfg : Config} {processed : List FPath}
    {p : FPath} {d : String} {x : FPath × FPath} :
    childClaim fs cfg processed p d = some x ↔
      coveredBy processed (p ++ [d]) = false
      ∧ fs.listdir (p ++ [d]) ≠ []
      ∧ is_project_or_app_folder cfg (p ++ [d]) (fs.listdir (p ++ [d])) = true
      ∧ x = (p ++ [d], p ++ [AAP, d]) := by
  rw [childClaim]
  by_cases hcov : coveredBy processed (p ++ [d]) = true
  · simp [hcov]
  · have hcov' : coveredBy processed (p ++ [d]) = false := Bool.eq_false_iff.mpr hcov
    rw [if_neg (by simp [hcov'])]
    by_cases hcl : fs.listdir (p ++ [d]) ≠ []
        ∧ is_project_or_app_folder cfg (p ++ [d]) (fs.listdir (p ++ [d])) = true
    · rw [if_pos hcl]
      simp [hcov', hcl.1, hcl.2]
      tauto
    · rw [if_neg hcl]
      simp [hcov']
      tauto

theorem pairwise_filterMap_of_nodup {α β : Type} (f : α → Option β) (R : β → β → Prop)
    (l : List α) (hl : l.Nodup)
    (h : ∀ a ∈ l, ∀ b ∈ l, a ≠ b → ∀ x y, f a = some x → f b = some y → R x y) :
    List.Pairwise R (l.filterMap f) := by
  induction l with
  | nil => simp
  | cons a l ih =>
    rw [List.filterMap_cons]
    have ha : a ∉ l := (List.nodup_cons.mp hl).1
    have hl' : l.Nodup := (List.nodup_cons.mp hl).2
    have hrec := ih hl' (fun b hb c hc hbc x y hx hy =>
      h b (List.mem_cons_of_mem a hb) c (List.mem_cons_of_mem a hc) hbc x y hx hy)
    cases hfa : f a with
    | none => exact hrec
    | some x =>
      refine List.Pairwise.cons ?_ hrec
      intro y hy
      obtain ⟨b, hb, hfb⟩ := List.mem_filterMap.mp hy
      exact h a (List.mem_cons_self a l) b (List.mem_cons_of_mem a hb)
        (fun hab => ha (hab ▸ hb)) x y hfa hfb

theorem snoc_prefix_snoc_eq {p : FPath} {a b : String}
    (h : p ++ [a] <+: p ++ [b]) : a = b := by
  have hlen : (p ++ [a]).length = (p ++ [b]).length := by simp
  have := List.IsPrefix.eq_of_length h hlen
  simpa using this

/-- Every claim produced beneath `p` has its source under `p`, and that source
is a directory of the filesystem unless it is `p` itself. -/
theorem identifyGo_source_prefix (fs : FS) (cfg : Config) (processed : List FPath) :
    ∀ (fuel : Nat) (p : FPath) (pr : FPath × FPath),
      pr ∈ identifyGo fs cfg processed fuel p →
      p <+: pr.1 ∧ (pr.1 ∈ fs.dirs ∨ pr.1 = p) := by
  intro fuel
  induction fuel with
  | zero =>
    intro p pr hpr
    rw [identifyGo] at hpr
    simp at hpr
  | succ fuel ih =>
    intro p pr hpr
    rw [identifyGo] at hpr
    by_cases hcov : coveredBy processed p = true
    · rw [if_pos hcov] at hpr
      simp at hpr
    · rw [if_neg hcov] at hpr
      by_cases hcls : fs.listdir p ≠ [] ∧ is_project_or_app_folder cfg p (fs.listdir p) = true
      · rw [if_pos hcls] at hpr
        rcases List.mem_singleton.mp hpr with rfl
        exact ⟨List.prefix_refl p, Or.inr rfl⟩
      · rw [if_neg hcls] at hpr
        simp only at hpr
        rcases List.mem_append.mp hpr with hmem | hmem
        · obtain ⟨d, hd, hsome⟩ := List.mem_filterMap.mp hmem
          obtain ⟨_, _, _, rfl⟩ := childClaim_eq_some.mp hsome
          exact ⟨List.prefix_append p [d], Or.inl (mem_childDirNames.mp hd)⟩
        · obtain ⟨sub, hsub, hprsub⟩ := List.mem_flatten.mp hmem
          obtain ⟨d, hd, rfl⟩ := List.mem_map.mp hsub
          have hdmem : d ∈ fs.childDirNames p := List.mem_of_mem_filter hd
          obtain ⟨hpre, hdir⟩ := ih (p ++ [d]) pr hprsub
          refine ⟨(List.prefix_append p [d]).trans hpre, ?_⟩
          rcases hdir with hdir | hdir
          · exact Or.inl hdir
          · exact Or.inl (hdir ▸ mem_childDirNames.mp hdmem)

/-- The claims produced by the discovery walk are pairwise incomparable: no
claimed source is a prefix of another. -/
theorem identifyGo_pairwise (fs : FS) (cfg : Config) (processed : List FPath)
    (hnd : fs.dirs.Nodup) :
    ∀ (fuel : Nat) (p : FPath),
      List.Pairwise (fun a b : FPath × FPath => ¬ a.1 <+: b.1 ∧ ¬ b.1 <+: a.1)
        (identifyGo fs cfg processed fuel p) := by
  intro fuel
  induction fuel with
  | zero =>
    intro p
    rw [identifyGo]
    simp
  | succ fuel ih =>
    intro p
    rw [identifyGo]
    by_cases hcov : coveredBy processed p = true
    · rw [if_pos hcov]
      simp
    · rw [if_neg hcov]
      by_cases hcls : fs.listdir p ≠ [] ∧ is_project_or_app_folder cfg p (fs.listdir p) = true
      · rw [if_pos hcls]
        simp
      · rw [if_neg hcls]
        simp only
        rw [List.pairwise_append]
        refine ⟨?_, ?_, ?_⟩
        · -- pairwise within the directly claimed children
          refine pairwise_filterMap_of_nodup _ _ _ (childDirNames_nodup hnd p) ?_
          intro a _ b _ hab x y hx hy
          obtain ⟨_, _, _, rfl⟩ := childClaim_eq_some.mp hx
          obtain ⟨_, _, _, rfl⟩ := childClaim_eq_some.mp hy
          exact ⟨fun hpre => hab (snoc_prefix_snoc_eq hpre),
                 fun hpre => hab (snoc_prefix_snoc_eq hpre).symm⟩
        · -- pairwise across the recursive subtrees
          rw [List.pairwise_flatten]
          constructor
          · intro sub hsub
            obtain ⟨d, _, rfl⟩ := List.mem_map.mp hsub
            exact ih (p ++ [d])
          · rw [List.pairwise_map]
            have hnodup : ((fs.childDirNames p).filter (fun d =>
                ¬ (coveredBy processed (p ++ [d]) = true
                   ∨ (fs.listdir (p ++ [d]) ≠ []
                      ∧ is_project_or_app_folder cfg (p ++ [d])
                          (fs.listdir (p ++ [d])) = true)))).Nodup :=
              List.Nodup.filter _ (childDirNames_nodup hnd p)
            refine List.Pairwise.imp_of_mem ?_ hnodup
            intro d d' hd hd' hdd' a ha b hb
            have hpa := ( identifyGo_source_prefix fs cfg processed fuel (p ++ [d]) a ha).1
            have hpb := ( identifyGo_source_prefix fs cfg processed fuel (p ++ [d']) b hb).1
            constructor
            · intro hab
              rcases List.prefix_or_prefix_of_prefix (hpa.trans hab) hpb with h | h
              · exact hdd' (snoc_prefix_snoc_eq h)
              · exact hdd' (snoc_prefix_snoc_eq h).symm
            · intro hba
              rcases List.prefix_or_prefix_of_prefix (hpb.trans hba) hpa with h | h
              · exact hdd' (snoc_prefix_snoc_eq h).symm
              · exact hdd' (snoc_prefix_snoc_eq h)
        · -- a directly claimed child is incomparable with every subtree claim
          intro a ha b hb
          obtain ⟨d, hd, hsome⟩ := List.mem_filterMap.mp ha
          obtain ⟨hcovd, hned, hclsd, rfl⟩ := childClaim_eq_some.mp hsome
          obtain ⟨sub, hsub, hbsub⟩ := List.mem_flatten.mp hb
          obtain ⟨d', hd', rfl⟩ := List.mem_map.mp hsub
          have hrem := List.of_mem_filter hd'
          have hdd' : d ≠ d' := by
            intro h
            subst h
            simp only [decide_eq_true_eq] at hrem
            exact hrem (Or.inr ⟨hned, hclsd⟩)
          have hpb := ( identifyGo_source_prefix fs cfg processed fuel (p ++ [d']) b hbsub).1
          constructor
          · intro hab
            have hab' : p ++ [d] <+: b.1 := hab
            rcases List.prefix_or_prefix_of_prefix hab' hpb with h | h
            · exact hdd' (snoc_prefix_snoc_eq h)
            · exact hdd' (snoc_prefix_snoc_eq h).symm
          · intro hba
            have h : p ++ [d'] <+: p ++ [d] := hpb.trans hba
            exact hdd' (snoc_prefix_snoc_eq h).symm

theorem phase1_processed_mono (outputDir : FPath) (dryRun : Bool)
    (failProjects : List FPath) :
    ∀ (l : List (FPath × FPath)) (st : P1State),
      st.processed <+: (l.foldl (phase1Step outputDir dryRun failProjects) st).processed := by
  intro l
  induction l with
  | nil => intro st; exact List.prefix_refl _
  | cons pr rest ih =>
    intro st
    rw [List.foldl_cons]
    refine List.IsPrefix.trans ?_ (ih _)
    rw [phase1Step]
    by_cases hok : (move_project st.fs pr.1 pr.2 outputDir dryRun failProjects).2 = true
    · rw [if_pos hok]
      exact ⟨[pr.1], rfl⟩
    · rw [if_neg hok]

/-- C7: no two claimed paths produced by the discovery pass are in an
ancestor/descendant relationship (they are pairwise incomparable), and the
processed set of the relocation loop only ever grows: after each loop
iteration the previous processed list is a prefix of the new one. -/
theorem C7_claimed_set_invariant (fs : FS) (cfg : Config) (inp : FPath)
    (hnd : fs.dirs.Nodup) :
    List.Pairwise (fun s t : FPath => ¬ s <+: t ∧ ¬ t <+: s)
      ((identify_projects fs cfg inp []).map Prod.fst)
    ∧ (∀ (outputDir : FPath) (dryRun : Bool) (failProjects : List FPath)
        (k : Nat) (st : P1State),
        (((identify_projects fs cfg inp []).take k).foldl
          (phase1Step outputDir dryRun failProjects) st).processed
        <+: (((identify_projects fs cfg inp []).take (k + 1)).foldl
          (phase1Step outputDir dryRun failProjects) st).processed) := by
  constructor
  · rw [List.pairwise_map]
    exact identifyGo_pairwise fs cfg [] hnd (fs.maxDepth + 1) inp
  · intro outputDir dryRun failProjects k st
    rw [List.take_add (identify_projects fs cfg inp []) k 1, List.foldl_append]
    exact phase1_processed_mono outputDir dryRun failProjects _ _

theorem C7_witness :
    List.Pairwise (fun s t : FPath => ¬ s <+: t ∧ ¬ t <+: s)
      ((identify_projects projFS defaultConfig ["in"] []).map Prod.fst)
    ∧ ((((identify_projects projFS defaultConfig ["in"] []).take 0).foldl
        (phase1Step ["out"] false []) ⟨projFS, [], 0, 0, 0⟩).processed
      <+: (((identify_projects projFS defaultConfig ["in"] []).take 1).foldl
        (phase1Step ["out"] false []) ⟨projFS, [], 0, 0, 0⟩).processed) := by
  have h := C7_claimed_set_invariant projFS defaultConfig ["in"] (by decide)
  exact ⟨h.1, h.2 ["out"] false [] 0 ⟨projFS, [], 0, 0, 0⟩⟩

-- ---------------------------------------------------------------------------
-- C8: empty-directory reclamation
-- ---------------------------------------------------------------------------

/-- The list of directories the cleanup loop actually removes, in removal
order (a specification-side shadow of `cleanupGo`). -/
def cleanupRemovedList (inputDir : FPath) : FS → List FPath → List FPath
  | _, [] => []
  | fs, d :: rest =>
    if d = inputDir then cleanupRemovedList inputDir fs rest
    else if fs.existsP d && fs.isDirP d && (fs.listdir d).isEmpty then
      d :: cleanupRemovedList inputDir (fs.removeDir d) rest
    else cleanupRemovedList inputDir fs rest

theorem cleanupGo_spec (inputDir : FPath) :
    ∀ (l : List FPath) (fs' : FS),
      (cleanupGo inputDir fs' l).1.dirs
        = fs'.dirs.filter (fun q => ! (cleanupRemovedList inputDir fs' l).contains q)
      ∧ (cleanupGo inputDir fs' l).1.files = fs'.files
      ∧ (cleanupGo inputDir fs' l).2 = (cleanupRemovedList inputDir fs' l).length := by
  intro l
  induction l with
  | nil =>
    intro fs'
    rw [cleanupGo, cleanupRemovedList]
    simp
  | cons d rest ih =>
    intro fs'
    rw [cleanupGo, cleanupRemovedList]
    by_cases hinp : d = inputDir
    · rw [if_pos hinp, if_pos hinp]
      exact ih fs'
    · rw [if_neg hinp, if_neg hinp]
      by_cases hcond : (fs'.existsP d && fs'.isDirP d && (fs'.listdir d).isEmpty) = true
      · rw [if_pos hcond, if_pos hcond]
        obtain ⟨ih1, ih2, ih3⟩ := ih (fs'.removeDir d)
        refine ⟨?_, ?_, ?_⟩
        · show (cleanupGo inputDir (fs'.removeDir d) rest).1.dirs = _
          rw [ih1]
          show ((fs'.dirs.filter _).filter _) = _
          rw [List.filter_filter]
          refine List.filter_congr ?_
          intro q _
          by_cases hqd : q = d
          · subst hqd
            simp
          · simp [hqd]
        · show (cleanupGo inputDir (fs'.removeDir d) rest).1.files = _
          rw [ih2]
          rfl
        · show (cleanupGo inputDir (fs'.removeDir d) rest).2 + 1 = _
          rw [ih3]
          rfl
      · rw [if_neg hcond, if_neg hcond]
        exact ih fs'

/-- Per-element soundness of the removal list, relative to the filesystem at
the start of the pass: every removed directory was a scheduled candidate other
than the root, it existed, it had no file children, and whenever it originally
had a directory child, that child was removed before it (it is in `Acc`) or
during the same pass. -/
theorem cleanupRL_facts (fs0 : FS) (inputDir : FPath) :
    ∀ (l : List FPath) (fs' : FS) (Acc : List FPath),
      fs'.files = fs0.files →
      (∀ q, q ∈ fs'.dirs ↔ q ∈ fs0.dirs ∧ q ∉ Acc) →
      ∀ d ∈ cleanupRemovedList inputDir fs' l,
        d ∈ l ∧ d ≠ inputDir ∧ d ∈ fs0.dirs ∧ fs0.childFileNames d = []
        ∧ (∀ c, (d ++ [c]) ∈ fs0.dirs →
            (d ++ [c]) ∈ Acc ∨ (d ++ [c]) ∈ cleanupRemovedList inputDir fs' l) := by
  intro l
  induction l with
  | nil =>
    intro fs' Acc _ _ d hd
    rw [cleanupRemovedList] at hd
    simp at hd
  | cons x rest ih =>
    intro fs' Acc hf hiff d hd
    rw [cleanupRemovedList] at hd
    by_cases hinp : x = inputDir
    · rw [if_pos hinp] at hd
      obtain ⟨h1, h2, h3, h4, h5⟩ := ih fs' Acc hf hiff d hd
      refine ⟨List.mem_cons_of_mem x h1, h2, h3, h4, ?_⟩
      intro c hc
      rcases h5 c hc with h | h
      · exact Or.inl h
      · refine Or.inr ?_
        rw [cleanupRemovedList, if_pos hinp]
        exact h
    · rw [if_neg hinp] at hd
      by_cases hcond : (fs'.existsP x && fs'.isDirP x && (fs'.listdir x).isEmpty) = true
      · rw [if_pos hcond] at hd
        have hcond' := hcond
        simp only [Bool.and_eq_true] at hcond'
        have hxdir : x ∈ fs'.dirs := contains_iff.mp hcond'.1.2
        have hnil : fs'.listdir x = [] := List.isEmpty_iff.mp hcond'.2
        have hfnil : fs0.childFileNames x = [] := by
          have : fs'.childFileNames x = [] := by
            have := congrArg (List.drop (fs'.childDirNames x).length) hnil
            simpa [FS.listdir, List.drop_left] using this
          rw [FS.childFileNames, hf] at this
          exact this
        have hdnil : fs'.childDirNames x = [] := by
          have := congrArg (List.take (fs'.childDirNames x).length) hnil
          simpa [FS.listdir, List.take_left] using this
        rcases List.mem_cons.mp hd with rfl | hd'
        · -- the removed head itself
          refine ⟨List.mem_cons_self _ _, hinp, ((hiff d).mp hxdir).1, hfnil, ?_⟩
          intro c hc
          by_cases hacc : (d ++ [c]) ∈ Acc
          · exact Or.inl hacc
          · exfalso
            have : (d ++ [c]) ∈ fs'.dirs := (hiff _).mpr ⟨hc, hacc⟩
            have : c ∈ fs'.childDirNames d := mem_childDirNames.mpr this
            rw [hdnil] at this
            simp at this
        · -- removed further down, after `x` disappeared
          have hiff' : ∀ q, q ∈ (fs'.removeDir x).dirs
              ↔ q ∈ fs0.dirs ∧ q ∉ Acc ++ [x] := by
            intro q
            rw [FS.removeDir]
            simp only [List.mem_filter]
            constructor
            · rintro ⟨hq, hneq⟩
              have := (hiff q).mp hq
              refine ⟨this.1, ?_⟩
              intro hmem
              rcases List.mem_append.mp hmem with h | h
              · exact this.2 h
              · rcases List.mem_singleton.mp h with rfl
                simp at hneq
            · rintro ⟨hq0, hnacc⟩
              refine ⟨(hiff q).mpr ⟨hq0, fun h => hnacc (List.mem_append_left _ h)⟩, ?_⟩
              simp only [decide_eq_true_eq]
              intro hqx
              exact hnacc (List.mem_append_right _ (hqx ▸ List.mem_singleton_self x))
          obtain ⟨h1, h2, h3, h4, h5⟩ := ih (fs'.removeDir x) (Acc ++ [x])
            (by rw [FS.removeDir]; exact hf) hiff' d hd'
          refine ⟨List.mem_cons_of_mem x h1, h2, h3, h4, ?_⟩
          intro c hc
          rcases h5 c hc with h | h
          · rcases List.mem_append.mp h with h | h
            · exact Or.inl h
            · rcases List.mem_singleton.mp h with heq
              refine Or.inr ?_
              rw [cleanupRemovedList, if_neg hinp, if_pos hcond, heq]
              exact List.mem_cons_self _ _
          · refine Or.inr ?_
            rw [cleanupRemovedList, if_neg hinp, if_pos hcond]
            exact List.mem_cons_of_mem x h
      · rw [if_neg hcond] at hd
        obtain ⟨h1, h2, h3, h4, h5⟩ := ih fs' Acc hf hiff d hd
        refine ⟨List.mem_cons_of_mem x h1, h2, h3, h4, ?_⟩
        intro c hc
        rcases h5 c hc with h | h
        · exact Or.inl h
        · refine Or.inr ?_
          rw [cleanupRemovedList, if_neg hinp, if_neg hcond]
          exact h

theorem cleanupRL_subset (inputDir : FPath) :
    ∀ (l : List FPath) (fs' : FS) (d : FPath),
      d ∈ cleanupRemovedList inputDir fs' l → d ∈ l := by
  intro l
  induction l with
  | nil =>
    intro fs' d hd
    rw [cleanupRemovedList] at hd
    simp at hd
  | cons x rest ih =>
    intro fs' d hd
    rw [cleanupRemovedList] at hd
    by_cases hinp : x = inputDir
    · rw [if_pos hinp] at hd
      exact List.mem_cons_of_mem x (ih fs' d hd)
    · rw [if_neg hinp] at hd
      by_cases hcond : (fs'.existsP x && fs'.isDirP x && (fs'.listdir x).isEmpty) = true
      · rw [if_pos hcond] at hd
        rcases List.mem_cons.mp hd with rfl | hd'
        · exact List.mem_cons_self _ _
        · exact List.mem_cons_of_mem x (ih (fs'.removeDir x) d hd')
      · rw [if_neg hcond] at hd
        exact List.mem_cons_of_mem x (ih fs' d hd)

theorem cleanupRL_nodup (inputDir : FPath) :
    ∀ (l : List FPath) (fs' : FS), (cleanupRemovedList inputDir fs' l).Nodup := by
  intro l
  induction l with
  | nil =>
    intro fs'
    rw [cleanupRemovedList]
    simp
  | cons x rest ih =>
    intro fs'
    rw [cleanupRemovedList]
    by_cases hinp : x = inputDir
    · rw [if_pos hinp]
      exact ih fs'
    · rw [if_neg hinp]
      by_cases hcond : (fs'.existsP x && fs'.isDirP x && (fs'.listdir x).isEmpty) = true
      · rw [if_pos hcond]
        refine List.nodup_cons.mpr ⟨?_, ih (fs'.removeDir x)⟩
        intro hmem
        have hfacts := cleanupRL_facts (fs'.removeDir x) inputDir rest
          (fs'.removeDir x) [] rfl (by simp) x hmem
        have hxd : x ∈ (fs'.removeDir x).dirs := hfacts.2.2.1
        rw [FS.removeDir] at hxd
        have := (List.mem_filter.mp hxd).2
        simp at this
      · rw [if_neg hcond]
        exact ih fs'

theorem cleanupRL_complete (fs0 : FS) (inputDir : FPath) :
    ∀ (l : List FPath),
      List.Pairwise (fun a b : FPath => b.length ≤ a.length) l → l.Nodup →
      ∀ (fs' : FS) (Acc : List FPath),
        fs'.files = fs0.files →
        (∀ q, q ∈ fs'.dirs ↔ q ∈ fs0.dirs ∧ q ∉ Acc) →
        ∀ d ∈ l, d ≠ inputDir → d ∈ fs0.dirs → d ∉ Acc →
          fs0.childFileNames d = [] →
          (∀ c, (d ++ [c]) ∈ fs0.dirs →
            (d ++ [c]) ∈ Acc ∨ (d ++ [c]) ∈ cleanupRemovedList inputDir fs' l) →
          d ∈ cleanupRemovedList inputDir fs' l := by
  intro l
  induction l with
  | nil =>
    intro _ _ fs' Acc _ _ d hd
    simp at hd
  | cons x rest ih =>
    intro hsort hnd fs' Acc hf hiff d hd hne hd0 hnacc hnof hchild
    have hsort' := List.Pairwise.sublist (List.sublist_cons_self x rest) hsort
    have hnd' : rest.Nodup := (List.nodup_cons.mp hnd).2
    have hxrest : x ∉ rest := (List.nodup_cons.mp hnd).1
    by_cases hinp : x = inputDir
    · -- the root itself is skipped
      have hRL : cleanupRemovedList inputDir fs' (x :: rest)
          = cleanupRemovedList inputDir fs' rest := by
        rw [cleanupRemovedList, if_pos hinp]
      rw [hRL] at hchild ⊢
      have hdrest : d ∈ rest := by
        rcases List.mem_cons.mp hd with rfl | h
        · exact absurd hinp hne
        · exact h
      exact ih hsort' hnd' fs' Acc hf hiff d hdrest hne hd0 hnacc hnof hchild
    · by_cases hcond : (fs'.existsP x && fs'.isDirP x && (fs'.listdir x).isEmpty) = true
      · -- the head is removed
        have hRL : cleanupRemovedList inputDir fs' (x :: rest)
            = x :: cleanupRemovedList inputDir (fs'.removeDir x) rest := by
          rw [cleanupRemovedList, if_neg hinp, if_pos hcond]
        rw [hRL] at hchild ⊢
        rcases List.mem_cons.mp hd with rfl | hdrest
        · exact List.mem_cons_self _ _
        · have hdx : d ≠ x := fun h => hxrest (h ▸ hdrest)
          have hiff' : ∀ q, q ∈ (fs'.removeDir x).dirs
              ↔ q ∈ fs0.dirs ∧ q ∉ Acc ++ [x] := by
            intro q
            rw [FS.removeDir]
            simp only [List.mem_filter]
            constructor
            · rintro ⟨hq, hneq⟩
              have := (hiff q).mp hq
              refine ⟨this.1, ?_⟩
              intro hmem
              rcases List.mem_append.mp hmem with h | h
              · exact this.2 h
              · rcases List.mem_singleton.mp h with rfl
                simp at hneq
            · rintro ⟨hq0, hnacc2⟩
              refine ⟨(hiff q).mpr ⟨hq0, fun h => hnacc2 (List.mem_append_left _ h)⟩, ?_⟩
              simp only [decide_eq_true_eq]
              intro hqx
              exact hnacc2 (List.mem_append_right _ (hqx ▸ List.mem_singleton_self x))
          refine List.mem_cons_of_mem x
            (ih hsort' hnd' (fs'.removeDir x) (Acc ++ [x])
              (by rw [FS.removeDir]; exact hf) hiff' d hdrest hne hd0 ?_ hnof ?_)
          · intro hmem
            rcases List.mem_append.mp hmem with h | h
            · exact hnacc h
            · exact hdx (List.mem_singleton.mp h)
          · intro c hc
            rcases hchild c hc with h | h
            · exact Or.inl (List.mem_append_left _ h)
            · rcases List.mem_cons.mp h with heq | h
              · exact Or.inl (List.mem_append_right _ (heq ▸ List.mem_singleton_self x))
              · exact Or.inr h
      · -- the head is skipped; `d` cannot be the head, since the head would
        -- in fact satisfy the removal condition
        have hRL : cleanupRemovedList inputDir fs' (x :: rest)
            = cleanupRemovedList inputDir fs' rest := by
          rw [cleanupRemovedList, if_neg hinp, if_neg hcond]
        rw [hRL] at hchild ⊢
        have hdrest : d ∈ rest := by
          rcases List.mem_cons.mp hd with rfl | h
          · exfalso
            apply hcond
            have hddirs : d ∈ fs'.dirs := (hiff d).mpr ⟨hd0, hnacc⟩
            have hfnil : fs'.childFileNames d = [] := by
              rw [FS.childFileNames, hf]
              exact hnof
            have hdnil : fs'.childDirNames d = [] := by
              refine List.eq_nil_iff_forall_not_mem.mpr ?_
              intro c hc
              have hcdirs : (d ++ [c]) ∈ fs'.dirs := mem_childDirNames.mp hc
              have hc0 := (hiff _).mp hcdirs
              rcases hchild c hc0.1 with h | h
              · exact hc0.2 h
              · have hcl : (d ++ [c]) ∈ rest := cleanupRL_subset inputDir rest fs' _ h
                have hlen := List.rel_of_pairwise_cons hsort hcl
                simp at hlen
            have : fs'.listdir d = [] := by
              rw [FS.listdir, hdnil, hfnil]
              rfl
            simp [FS.existsP, FS.isDirP, contains_iff.mpr hddirs, this]
            exact ⟨Or.inl hddirs, hddirs⟩
          · exact h
        exact ih hsort' hnd' fs' Acc hf hiff d hdrest hne hd0 hnacc hnof hchild

theorem insertDepth_perm (p : FPath) (l : List FPath) :
    List.Perm (insertDepth p l) (p :: l) := by
  induction l with
  | nil => simp [insertDepth]
  | cons q rest ih =>
    rw [insertDepth]
    by_cases h : q.length ≤ p.length
    · rw [if_pos h]
    · rw [if_neg h]
      exact (List.Perm.cons q ih).trans (List.Perm.swap p q rest)

theorem sortDepthDesc_perm (l : List FPath) : List.Perm (sortDepthDesc l) l := by
  induction l with
  | nil => simp [sortDepthDesc]
  | cons p rest ih =>
    rw [sortDepthDesc]
    exact (insertDepth_perm p (sortDepthDesc rest)).trans (List.Perm.cons p ih)

theorem insertDepth_sorted (p : FPath) {l : List FPath}
    (h : List.Pairwise (fun a b : FPath => b.length ≤ a.length) l) :
    List.Pairwise (fun a b : FPath => b.length ≤ a.length) (insertDepth p l) := by
  induction l with
  | nil => simp [insertDepth]
  | cons q rest ih =>
    rw [insertDepth]
    by_cases hle : q.length ≤ p.length
    · rw [if_pos hle]
      refine List.Pairwise.cons ?_ h
      intro y hy
      rcases List.mem_cons.mp hy with rfl | hy'
      · exact hle
      · exact le_trans (List.rel_of_pairwise_cons h hy') hle
    · rw [if_neg hle]
      have hq : p.length ≤ q.length := le_of_lt (lt_of_not_le hle)
      refine List.Pairwise.cons ?_ (ih (List.Pairwise.sublist (List.sublist_cons_self q rest) h))
      intro y hy
      have : y ∈ p :: rest :=
        (insertDepth_perm p rest).mem_iff.mp hy
      rcases List.mem_cons.mp this with rfl | hy'
      · exact hq
      · exact List.rel_of_pairwise_cons h hy'

theorem sortDepthDesc_sorted (l : List FPath) :
    List.Pairwise (fun a b : FPath => b.length ≤ a.length) (sortDepthDesc l) := by
  induction l with
  | nil => simp [sortDepthDesc]
  | cons p rest ih =>
    rw [sortDepthDesc]
    exact insertDepth_sorted p ih

/-- C8: empty-directory reclamation is a no-op under dry-run; otherwise it
removes exactly the directories in its removal list (a subset of the
candidates, never the input root), leaves every file untouched, and returns
the number actually removed; every removed directory existed, had no file
children, and all its directory children were also removed (it was empty when
processed, deepest-first); and conversely every candidate directory other than
the root whose file children are absent and whose directory children are all
removed is itself removed in the same pass. -/
theorem C8_cleanup (fs : FS) (inp : FPath) (cands : List FPath) (hnd : cands.Nodup) :
    cleanup_empty_directories fs inp cands true = (fs, 0)
    ∧ (cleanup_empty_directories fs inp cands false).1.dirs
      = fs.dirs.filter (fun q =>
          ! (cleanupRemovedList inp fs (sortDepthDesc cands)).contains q)
    ∧ (cleanup_empty_directories fs inp cands false).1.files = fs.files
    ∧ (cleanup_empty_directories fs inp cands false).2
      = (cleanupRemovedList inp fs (sortDepthDesc cands)).length
    ∧ (cleanupRemovedList inp fs (sortDepthDesc cands)).Nodup
    ∧ (∀ d ∈ cleanupRemovedList inp fs (sortDepthDesc cands),
        d ∈ cands ∧ d ≠ inp ∧ d ∈ fs.dirs ∧ fs.childFileNames d = []
        ∧ (∀ c, (d ++ [c]) ∈ fs.dirs →
            (d ++ [c]) ∈ cleanupRemovedList inp fs (sortDepthDesc cands)))
    ∧ (∀ d ∈ cands, d ≠ inp → d ∈ fs.dirs → fs.childFileNames d = [] →
        (∀ c, (d ++ [c]) ∈ fs.dirs →
          (d ++ [c]) ∈ cleanupRemovedList inp fs (sortDepthDesc cands)) →
        d ∈ cleanupRemovedList inp fs (sortDepthDesc cands)) := by
  have hunfold : cleanup_empty_directories fs inp cands false
      = cleanupGo inp fs (sortDepthDesc cands) := by
    rw [cleanup_empty_directories]
    rfl
  obtain ⟨g1, g2, g3⟩ := cleanupGo_spec inp (sortDepthDesc cands) fs
  refine ⟨by rw [cleanup_empty_directories]; rfl, ?_, ?_, ?_,
    cleanupRL_nodup inp _ fs, ?_, ?_⟩
  · rw [hunfold]
    exact g1
  · rw [hunfold]
    exact g2
  · rw [hunfold]
    exact g3
  · intro d hd
    obtain ⟨h1, h2, h3, h4, h5⟩ := cleanupRL_facts fs inp (sortDepthDesc cands) fs []
      rfl (by simp) d hd
    refine ⟨(sortDepthDesc_perm cands).mem_iff.mp h1, h2, h3, h4, ?_⟩
    intro c hc
    rcases h5 c hc with h | h
    · simp at h
    · exact h
  · intro d hd hne hd0 hnof hchild
    exact cleanupRL_complete fs inp (sortDepthDesc cands) (sortDepthDesc_sorted cands)
      ((sortDepthDesc_perm cands).nodup_iff.mpr hnd) fs [] rfl (by simp) d
      ((sortDepthDesc_perm cands).mem_iff.mpr hd) hne hd0 (by simp) hnof
      (fun c hc => Or.inr (hchild c hc))

/-- Witness tree for C8: `in/a/b` and `in/a` are empty candidates; the pass
removes the child and then its parent, returning 2 and never touching the
root. -/
def cleanFS : FS :=
  { dirs := [["in"], ["in", "a"], ["in", "a", "b"]], files := [] }

theorem C8_witness :
    cleanup_empty_directories cleanFS ["in"] [["in"], ["in", "a"], ["in", "a", "b"]] true
      = (cleanFS, 0)
    ∧ (cleanup_empty_directories cleanFS ["in"]
        [["in"], ["in", "a"], ["in", "a", "b"]] false).1.dirs = [["in"]]
    ∧ (cleanup_empty_directories cleanFS ["in"]
        [["in"], ["in", "a"], ["in", "a", "b"]] false).2 = 2 := by
  have h := C8_cleanup cleanFS ["in"] [["in"], ["in", "a"], ["in", "a", "b"]] (by decide)
  refine ⟨h.1, ?_, ?_⟩
  · exact h.2.1.trans (by decide)
  · exact h.2.2.2.1.trans (by decide)

-- ---------------------------------------------------------------------------
-- C3 (amended): dry-run versus real-run simulation
-- ---------------------------------------------------------------------------

/-- The source files the phase-2 walk visits, in order, as a pure function of
the starting filesystem and the claimed set. -/
def visitFiles (fs : FS) (P : List FPath) : Nat → FPath → List FPath
  | 0, _ => []
  | fuel + 1, p =>
    if coveredBy P p then []
    else
      ((fs.childFileNames p).map (fun n => p ++ [n]))
      ++ ((fs.childDirNames p).map (fun d => visitFiles fs P fuel (p ++ [d]))).flatten

theorem prefix_append_split {q a b : FPath} (h : q <+: a ++ b) :
    q <+: a ∨ a <+: q :=
  List.prefix_or_prefix_of_prefix h (List.prefix_append a b)

/-- Under an incomparable input/output pair, no extension-of-output path lies
inside the input tree. -/
theorem not_inp_prefix_of_out_ext {inp out : FPath}
    (h1 : ¬ inp <+: out) (h2 : ¬ out <+: inp) {x q : FPath}
    (hq : q <+: out ++ x) : ¬ inp <+: q := by
  intro hinpq
  rcases prefix_append_split hq with h | h
  · exact h1 (hinpq.trans h)
  · rcases List.prefix_or_prefix_of_prefix hinpq h with h' | h'
    · exact h1 h'
    · exact h2 h'

theorem dropLast_out_ext {out : FPath} {y : FPath} (hy : y ≠ []) :
    (out ++ y).dropLast = out ++ y.dropLast :=
  List.dropLast_append_of_ne_nil out hy

/-- `generate_unique_filename` never leaves the parent directory of its
requested target: the result extends the output root whenever the target
does. -/
theorem uniqGo_out_ext (fsR : FS) (parent : FPath) (stem sfx : String) (orig : FPath) :
    ∀ fuel c, uniqGo fsR parent stem sfx orig c fuel = orig
      ∨ ∃ k, uniqGo fsR parent stem sfx orig c fuel = parent ++ [candName stem sfx k] := by
  intro fuel
  induction fuel with
  | zero =>
    intro c
    rw [uniqGo]
    exact Or.inl rfl
  | succ fuel ih =>
    intro c
    rw [uniqGo]
    by_cases hfree : fsR.existsP (parent ++ [candName stem sfx c]) = false
    · rw [if_pos hfree]
      exact Or.inr ⟨c, rfl⟩
    · rw [if_neg hfree]
      by_cases hcap : c + 1 > 10000
      · rw [if_pos hcap]
        exact Or.inl rfl
      · rw [if_neg hcap]
        exact ih (c + 1)

theorem generate_unique_out_ext (fsR : FS) (dir : FPath) (name : String) :
    ∃ nm, generate_unique_filename fsR (dir ++ [name]) = dir ++ [nm] := by
  rw [generate_unique_filename]
  by_cases hfree : fsR.existsP (dir ++ [name]) = false
  · rw [if_pos hfree]
    exact ⟨name, rfl⟩
  · rw [if_neg hfree]
    have hdrop : (dir ++ [name]).dropLast = dir := List.dropLast_concat ..
    rcases uniqGo_out_ext fsR (dir ++ [name]).dropLast
      (pyStem (lastName (dir ++ [name]))) (pySuffix (lastName (dir ++ [name])))
      (dir ++ [name]) 10000 1 with h | ⟨k, h⟩
    · exact ⟨name, h⟩
    · refine ⟨candName (pyStem (lastName (dir ++ [name])))
        (pySuffix (lastName (dir ++ [name]))) k, ?_⟩
      rw [h, hdrop]

theorem categorize_target (cfg : Config) (fsR : FS) (filePath outputDir : FPath)
    (dryRun : Bool) (failFiles : List FPath) :
    (categorize_and_move_file cfg fsR filePath outputDir dryRun failFiles).2.2
      = generate_unique_filename fsR
          ((outputDir ++ splitSlash (get_category_for_file cfg (lastName filePath)))
            ++ [lastName filePath]) := by
  rw [categorize_and_move_file]
  by_cases hd : dryRun = true
  · rw [if_pos hd]
  · rw [if_neg hd]
    by_cases hc : failFiles.contains filePath = true
    · rw [if_pos hc]
    · rw [if_neg hc]

/-- The computed decision target of a file always sits directly inside the
file's category directory. -/
theorem categorize_target_dir (cfg : Config) (fsR : FS) (p : FPath) (n : String)
    (outputDir : FPath) (dryRun : Bool) (failFiles : List FPath) :
    (categorize_and_move_file cfg fsR (p ++ [n]) outputDir dryRun failFiles).2.2.dropLast
      = outputDir ++ splitSlash (get_category_for_file cfg (lastName (p ++ [n]))) := by
  rw [categorize_target]
  obtain ⟨nm, hnm⟩ := generate_unique_out_ext fsR
    (outputDir ++ splitSlash (get_category_for_file cfg (lastName (p ++ [n]))))
    (lastName (p ++ [n]))
  rw [hnm]
  exact List.dropLast_concat ..

theorem skipCheck_false {P : List FPath} {p : FPath} (hcov : coveredBy P p = false)
    (n : String) :
    (P.any (fun q => q.isPrefixOf (p ++ [n]) && ¬ q = (p ++ [n]))) = false := by
  refine Bool.eq_false_iff.mpr ?_
  intro hany
  obtain ⟨q, hq, hcond⟩ := List.any_eq_true.mp hany
  rw [Bool.and_eq_true] at hcond
  have hpre : q <+: p ++ [n] := List.isPrefixOf_iff_prefix.mp hcond.1
  have hne : q ≠ p ++ [n] := by simpa using hcond.2
  rcases prefix_snoc_iff.mp hpre with h | h
  · exact coveredBy_eq_false_iff.mp hcov q hq h
  · exact hne h

theorem categorize_dry (cfg : Config) (fsR : FS) (filePath outputDir : FPath)
    (failFiles : List FPath) :
    (categorize_and_move_file cfg fsR filePath outputDir true failFiles).1 = fsR
    ∧ (categorize_and_move_file cfg fsR filePath outputDir true failFiles).2.1 = true :=
  ⟨rfl, rfl⟩

theorem processFilesIn_dry (cfg : Config) (out : FPath) (ff P : List FPath) (p : FPath)
    (hcov : coveredBy P p = false) :
    ∀ (names : List String) (st : P2State),
      (processFilesIn cfg out true ff P p names st).fs = st.fs
      ∧ (processFilesIn cfg out true ff P p names st).decisions.map Prod.fst
        = st.decisions.map Prod.fst ++ names.map (fun n => p ++ [n]) := by
  intro names
  induction names with
  | nil =>
    intro st
    exact ⟨rfl, by simp [processFilesIn]⟩
  | cons n rest ih =>
    intro st
    simp only [processFilesIn] at ih ⊢
    rw [List.foldl_cons]
    rw [if_neg (by rw [skipCheck_false hcov n]; exact Bool.false_ne_true)]
    obtain ⟨ih1, ih2⟩ := ih _
    refine ⟨by rw [ih1]; rfl, ?_⟩
    rw [ih2]
    simp

theorem phase2Go_dry (cfg : Config) (out : FPath) (del : Bool) (ff P : List FPath)
    (fs : FS) :
    ∀ (fuel : Nat) (p : FPath) (st : P2State), st.fs = fs →
      (phase2Go cfg out true del ff P fuel p st).fs = fs
      ∧ (phase2Go cfg out true del ff P fuel p st).decisions.map Prod.fst
        = st.decisions.map Prod.fst ++ visitFiles fs P fuel p := by
  intro fuel
  induction fuel with
  | zero =>
    intro p st hst
    rw [phase2Go, visitFiles]
    exact ⟨hst, by simp⟩
  | succ fuel ih =>
    intro p st hst
    rw [phase2Go, visitFiles]
    by_cases hcov : coveredBy P p = true
    · rw [if_pos hcov, if_pos hcov]
      exact ⟨hst, by simp⟩
    · have hcov' : coveredBy P p = false := Bool.eq_false_iff.mpr hcov
      rw [if_neg hcov, if_neg hcov]
      set st1 := if del then { st with candidates := st.candidates ++ [p] } else st
        with hst1
      have h1 : st1.fs = fs ∧ st1.decisions = st.decisions := by
        rw [hst1]
        cases del
        · exact ⟨hst, rfl⟩
        · exact ⟨hst, rfl⟩
      obtain ⟨g1, g2⟩ := processFilesIn_dry cfg out ff P p hcov'
        (st1.fs.childFileNames p) st1
      set st2 := processFilesIn cfg out true ff P p (st1.fs.childFileNames p) st1
        with hst2
      have hfold : ∀ (l : List String) (s : P2State), s.fs = fs →
          (l.foldl (fun s d => phase2Go cfg out true del ff P fuel (p ++ [d]) s) s).fs = fs
          ∧ (l.foldl (fun s d =>
              phase2Go cfg out true del ff P fuel (p ++ [d]) s) s).decisions.map Prod.fst
            = s.decisions.map Prod.fst
              ++ (l.map (fun d => visitFiles fs P fuel (p ++ [d]))).flatten := by
        intro l
        induction l with
        | nil =>
          intro s hs
          exact ⟨hs, by simp⟩
        | cons d lrest ihl =>
          intro s hs
          rw [List.foldl_cons]
          obtain ⟨k1, k2⟩ := ih (p ++ [d]) s hs
          obtain ⟨m1, m2⟩ := ihl _ k1
          refine ⟨m1, ?_⟩
          rw [m2, k2]
          simp
      have hfpre : st2.fs = fs := by rw [g1, h1.1]
      obtain ⟨k1, k2⟩ := hfold (st1.fs.childDirNames p) st2 hfpre
      refine ⟨k1, ?_⟩
      rw [k2, g2, h1.2, h1.1]
      simp

theorem phase1_dry_fs (out : FPath) (fp : List FPath) :
    ∀ (l : List (FPath × FPath)) (st : P1State),
      (l.foldl (phase1Step out true fp) st).fs = st.fs := by
  intro l
  induction l with
  | nil => intro st; rfl
  | cons pr rest ih =>
    intro st
    rw [List.foldl_cons]
    rw [ih]
    rw [phase1Step]
    rw [move_project]
    rw [if_pos rfl]
    simp

theorem coveredBy_append {A B : List FPath} {p : FPath} :
    coveredBy (A ++ B) p = (coveredBy A p || coveredBy B p) := by
  simp [coveredBy, List.any_append]

theorem coveredBy_singleton {s p : FPath} :
    coveredBy [s] p = s.isPrefixOf p := by
  simp [coveredBy]

theorem pathPrefixes_prefix {e t : FPath} (he : e ∈ pathPrefixes t) : e <+: t := by
  obtain ⟨i, _, rfl⟩ := List.mem_map.mp he
  exact List.take_prefix ..

theorem contains_append_bool {A B : List FPath} {x : FPath} :
    (A ++ B).contains x = (A.contains x || B.contains x) := by
  by_cases hA : x ∈ A
  · simp [contains_iff.mpr hA, contains_iff.mpr (List.mem_append_left B hA)]
  · by_cases hB : x ∈ B
    · simp [contains_iff.mpr (List.mem_append_right A hB), contains_iff.mpr hB,
        Bool.eq_false_iff.mpr (fun h => hA (contains_iff.mp h))]
    · have h1 : A.contains x = false := Bool.eq_false_iff.mpr (fun h => hA (contains_iff.mp h))
      have h2 : B.contains x = false := Bool.eq_false_iff.mpr (fun h => hB (contains_iff.mp h))
      have h3 : (A ++ B).contains x = false := by
        refine Bool.eq_false_iff.mpr (fun h => ?_)
        rcases List.mem_append.mp (contains_iff.mp h) with h | h
        · exact hA h
        · exact hB h
      rw [h1, h2, h3]
      rfl

/-- The phase-2 walk relation between the live filesystem of the real run and
the original snapshot: outside the claimed subtrees, the listed subdirectories
are the original ones minus the claimed children, and the listed files are the
original ones minus those already relocated (`V`). -/
def Rel2 (fs : FS) (P : List FPath) (inp : FPath) (fsR : FS) (V : List FPath) : Prop :=
  ∀ p, inp <+: p → coveredBy P p = false →
    fsR.childDirNames p = (fs.childDirNames p).filter (fun d => ! coveredBy P (p ++ [d]))
    ∧ fsR.childFileNames p
      = (fs.childFileNames p).filter (fun n => ! V.contains (p ++ [n]))

/-- The same relation as produced by phase 1 alone: no files moved yet. -/
def Rel1 (fs : FS) (inp : FPath) (Q : List FPath) (fsR : FS) : Prop :=
  ∀ p, inp <+: p → coveredBy Q p = false →
    fsR.childDirNames p = (fs.childDirNames p).filter (fun d => ! coveredBy Q (p ++ [d]))
    ∧ fsR.childFileNames p = fs.childFileNames p

theorem Rel1_refl (fs : FS) (inp : FPath) : Rel1 fs inp [] fs := by
  intro p _ _
  constructor
  · symm
    refine List.filter_eq_self.mpr ?_
    intro d _
    simp [coveredBy]
  · rfl

theorem Rel2_of_Rel1 {fs : FS} {inp : FPath} {Q : List FPath} {fsR : FS}
    (h : Rel1 fs inp Q fsR) : Rel2 fs Q inp fsR [] := by
  intro p hp hcov
  obtain ⟨h1, h2⟩ := h p hp hcov
  refine ⟨h1, ?_⟩
  rw [h2]
  symm
  refine List.filter_eq_self.mpr ?_
  intro n _
  rfl

-- surgery lemmas: how each mutation primitive changes the child listings of
-- a directory inside the input tree

theorem mkdirParents_childNames {inp out : FPath}
    (h1 : ¬ inp <+: out) (h2 : ¬ out <+: inp) (fsR : FS) {t : FPath}
    (ht : ∃ x, t = out ++ x) {p : FPath} (hp : inp <+: p) :
    (fsR.mkdirParents t).childDirNames p = fsR.childDirNames p
    ∧ (fsR.mkdirParents t).childFileNames p = fsR.childFileNames p := by
  obtain ⟨x, rfl⟩ := ht
  constructor
  · show ((fsR.dirs ++ _).filter _).map lastName = _
    rw [List.filter_append]
    have hnil : ((pathPrefixes (out ++ x)).filter
        (fun q => ¬ fsR.dirs.contains q = true)).filter (fun d => isChildOf p d) = [] := by
      refine List.filter_eq_nil_iff.mpr ?_
      intro e he hchild
      have he' : e ∈ pathPrefixes (out ++ x) := List.mem_of_mem_filter he
      have hpre : e <+: out ++ x := pathPrefixes_prefix he'
      have : p <+: e := (isChildOf_iff.mp hchild).2
      exact not_inp_prefix_of_out_ext h1 h2 hpre (hp.trans this)
    rw [hnil, List.append_nil]
    rfl
  · rfl

theorem moveFile_childFileNames {inp : FPath} (fsR : FS) {src tgt : FPath}
    (hOut : ¬ inp <+: tgt) {p : FPath} (hp : inp <+: p) :
    (fsR.moveFile src tgt).childFileNames p
      = (fsR.childFileNames p).filter (fun n => ¬ (p ++ [n]) = src) := by
  show ((fsR.files.map _).filter _).map lastName = _
  rw [List.filter_map]
  have hcongr : fsR.files.filter
      ((fun f => isChildOf p f) ∘ (fun f => if f = src then tgt else f))
      = fsR.files.filter (fun f => isChildOf p f && ¬ f = src) := by
    refine List.filter_congr ?_
    intro q _
    by_cases hq : q = src
    · subst hq
      simp only [Function.comp, if_pos rfl]
      have : isChildOf p tgt = false := by
        refine Bool.eq_false_iff.mpr (fun h => ?_)
        exact hOut (hp.trans (isChildOf_iff.mp h).2)
      simp [this]
    · simp [Function.comp, hq]
  rw [hcongr]
  have hmapid : (fsR.files.filter (fun f => isChildOf p f && ¬ f = src)).map
      ((fun f => if f = src then tgt else f)) = fsR.files.filter (fun f => isChildOf p f && ¬ f = src) := by
    refine (List.map_congr_left ?_).trans (List.map_id _)
    intro q hq
    have := (List.mem_filter.mp hq).2
    rw [Bool.and_eq_true] at this
    have hne : ¬ q = src := by simpa using this.2
    simp [hne]
  rw [List.map_map]
  have : (fsR.files.filter (fun f => isChildOf p f && ¬ f = src)).map
      (lastName ∘ (fun f => if f = src then tgt else f))
      = (fsR.files.filter (fun f => isChildOf p f && ¬ f = src)).map lastName := by
    refine List.map_congr_left ?_
    intro q hq
    have := (List.mem_filter.mp hq).2
    rw [Bool.and_eq_true] at this
    have hne : ¬ q = src := by simpa using this.2
    simp [Function.comp, hne]
  rw [this]
  -- move the name-level filter inside
  show _ = ((fsR.files.filter (fun f => isChildOf p f)).map lastName).filter _
  rw [List.filter_map]
  rw [List.filter_filter]
  refine congrArg (List.map lastName) ?_
  refine List.filter_congr ?_
  intro q hq
  by_cases hc : isChildOf p q = true
  · have : q = p ++ [lastName q] := child_eq_parent_snoc hc
    by_cases hqs : q = src
    · have : ¬ (p ++ [lastName q]) = src → False := fun hh => hh (this ▸ hqs)
      simp only [hc, Function.comp]
      rw [← child_eq_parent_snoc hc]
      simp [hqs]
    · simp only [hc, Function.comp]
      rw [← child_eq_parent_snoc hc]
      simp [hqs]
  · have hc' : isChildOf p q = false := Bool.eq_false_iff.mpr hc
    simp [hc', Function.comp]

theorem moveTree_childDirNames (fsR : FS) {inp s t p : FPath}
    (hOut : ∀ x, ¬ inp <+: t ++ x) (hp : inp <+: p) :
    (fsR.moveTree s t).childDirNames p
      = (fsR.childDirNames p).filter (fun d => ! s.isPrefixOf (p ++ [d])) := by
  show ((fsR.dirs.map _).filter _).map lastName = _
  rw [List.filter_map]
  have hchildσ : ∀ q, s.isPrefixOf q = true → isChildOf p (rebase s t q) = false := by
    intro q _
    refine Bool.eq_false_iff.mpr (fun h => ?_)
    exact hOut (q.drop s.length) (hp.trans (isChildOf_iff.mp h).2)
  have hcongr : fsR.dirs.filter
      ((fun d => isChildOf p d) ∘ (fun d => if s.isPrefixOf d then rebase s t d else d))
      = fsR.dirs.filter (fun d => isChildOf p d && ! s.isPrefixOf d) := by
    refine List.filter_congr ?_
    intro q _
    by_cases hsq : s.isPrefixOf q = true
    · simp [Function.comp, hsq, hchildσ q hsq]
    · have hsq' : s.isPrefixOf q = false := Bool.eq_false_iff.mpr hsq
      simp [Function.comp, hsq']
  rw [hcongr, List.map_map]
  have hmap : (fsR.dirs.filter (fun d => isChildOf p d && ! s.isPrefixOf d)).map
      (lastName ∘ (fun d => if s.isPrefixOf d then rebase s t d else d))
      = (fsR.dirs.filter (fun d => isChildOf p d && ! s.isPrefixOf d)).map lastName := by
    refine List.map_congr_left ?_
    intro q hq
    have := (List.mem_filter.mp hq).2
    rw [Bool.and_eq_true] at this
    have hsq : s.isPrefixOf q = false := by
      rcases Bool.eq_false_or_eq_true (s.isPrefixOf q) with h | h
      · rw [h] at this
        simp at this
      · exact h
    simp [Function.comp, hsq]
  rw [hmap]
  show _ = ((fsR.dirs.filter (fun d => isChildOf p d)).map lastName).filter _
  rw [List.filter_map, List.filter_filter]
  refine congrArg (List.map lastName) ?_
  refine List.filter_congr ?_
  intro q _
  by_cases hc : isChildOf p q = true
  · simp only [hc, Function.comp, Bool.true_and]
    rw [← child_eq_parent_snoc hc]
    simp
  · have hc' : isChildOf p q = false := Bool.eq_false_iff.mpr hc
    simp [hc', Function.comp]

theorem moveTree_childFileNames (fsR : FS) {inp s t p : FPath}
    (hOut : ∀ x, ¬ inp <+: t ++ x) (hp : inp <+: p)
    (hnosub : ∀ q ∈ fsR.files, isChildOf p q = true → s.isPrefixOf q = false) :
    (fsR.moveTree s t).childFileNames p = fsR.childFileNames p := by
  show ((fsR.files.map _).filter _).map lastName = _
  rw [List.filter_map]
  have hchildσ : ∀ q, s.isPrefixOf q = true → isChildOf p (rebase s t q) = false := by
    intro q _
    refine Bool.eq_false_iff.mpr (fun h => ?_)
    exact hOut (q.drop s.length) (hp.trans (isChildOf_iff.mp h).2)
  have hcongr : fsR.files.filter
      ((fun f => isChildOf p f) ∘ (fun f => if s.isPrefixOf f then rebase s t f else f))
      = fsR.files.filter (fun f => isChildOf p f) := by
    refine List.filter_congr ?_
    intro q hq
    by_cases hsq : s.isPrefixOf q = true
    · have h1 := hchildσ q hsq
      have h2 : isChildOf p q = false := by
        rcases Bool.eq_false_or_eq_true (isChildOf p q) with h | h
        · rw [hnosub q hq h] at hsq
          exact absurd hsq Bool.false_ne_true
        · exact h
      simp [Function.comp, hsq, h1, h2]
    · have hsq' : s.isPrefixOf q = false := Bool.eq_false_iff.mpr hsq
      simp [Function.comp, hsq']
  rw [hcongr, List.map_map]
  refine List.map_congr_left ?_
  intro q hq
  have hchild := (List.mem_filter.mp hq).2
  have hsq : s.isPrefixOf q = false := hnosub q (List.mem_of_mem_filter hq) hchild
  simp [Function.comp, hsq]

theorem lastName_snoc (p : FPath) (d : String) : lastName (p ++ [d]) = d := by
  simp [lastName, List.getLast?_concat]

/-- Every claim of the discovery walk targets
`<source-parent>/Applications_And_Projects/<source-name>`. -/
theorem identifyGo_claim_shape (fs : FS) (cfg : Config) (processed : List FPath) :
    ∀ (fuel : Nat) (p : FPath) (pr : FPath × FPath),
      pr ∈ identifyGo fs cfg processed fuel p →
      pr.2 = pr.1.dropLast ++ [AAP, lastName pr.1] := by
  intro fuel
  induction fuel with
  | zero =>
    intro p pr hpr
    rw [identifyGo] at hpr
    simp at hpr
  | succ fuel ih =>
    intro p pr hpr
    rw [identifyGo] at hpr
    by_cases hcov : coveredBy processed p = true
    · rw [if_pos hcov] at hpr
      simp at hpr
    · rw [if_neg hcov] at hpr
      by_cases hcls : fs.listdir p ≠ [] ∧ is_project_or_app_folder cfg p (fs.listdir p) = true
      · rw [if_pos hcls] at hpr
        rcases List.mem_singleton.mp hpr with rfl
        rfl
      · rw [if_neg hcls] at hpr
        simp only at hpr
        rcases List.mem_append.mp hpr with hmem | hmem
        · obtain ⟨d, _, hsome⟩ := List.mem_filterMap.mp hmem
          obtain ⟨_, _, _, rfl⟩ := childClaim_eq_some.mp hsome
          show p ++ [AAP, d] = (p ++ [d]).dropLast ++ [AAP, lastName (p ++ [d])]
          rw [List.dropLast_concat, lastName_snoc]
        · obtain ⟨sub, hsub, hprsub⟩ := List.mem_flatten.mp hmem
          obtain ⟨d, _, rfl⟩ := List.mem_map.mp hsub
          exact ih (p ++ [d]) pr hprsub

theorem validate_ok_facts {fs : FS} {inp : FPath} {outOpt : Option FPath}
    {inp2 out : FPath}
    (hval : validate_input_paths fs inp outOpt = .ok (inp2, out)) :
    inp2 = inp ∧ inp ∈ fs.dirs := by
  rw [validate_input_paths] at hval
  by_cases h1 : fs.existsP inp = false
  · rw [if_pos h1] at hval
    simp at hval
  · rw [if_neg h1] at hval
    by_cases h2 : fs.isDirP inp = false
    · rw [if_pos h2] at hval
      simp at hval
    · rw [if_neg h2] at hval
      have hmem : inp ∈ fs.dirs := by
        rcases Bool.eq_false_or_eq_true (fs.isDirP inp) with h | h
        · exact contains_iff.mp h
        · exact absurd h h2
      by_cases h3 : inp = (outOpt.getD (inp.dropLast ++ [lastName inp ++ "_Sorted"]))
      · rw [if_pos h3] at hval
        simp at hval
      · rw [if_neg h3] at hval
        simp only [Except.ok.injEq, Prod.mk.injEq] at hval
        exact ⟨hval.1.symm, hmem⟩

theorem coveredBy_snoc_false {Q : List FPath} {s p : FPath}
    (h : coveredBy (Q ++ [s]) p = false) :
    coveredBy Q p = false ∧ s.isPrefixOf p = false := by
  rw [coveredBy_append, coveredBy_singleton] at h
  exact Bool.or_eq_false_iff.mp h

theorem phase1_real_rel {fs : FS} {inp out : FPath}
    (hWF : fs.WF) (h1 : ¬ inp <+: out) (h2 : ¬ out <+: inp) :
    ∀ (l : List (FPath × FPath)) (st : P1State) (Q : List FPath),
      (∀ pr ∈ l, inp <+: pr.1 ∧ pr.1 ∈ fs.dirs
        ∧ pr.2 = pr.1.dropLast ++ [AAP, lastName pr.1]) →
      Rel1 fs inp Q st.fs →
      Rel1 fs inp (Q ++ l.map Prod.fst) ((l.foldl (phase1Step out false []) st).fs) := by
  intro l
  induction l with
  | nil =>
    intro st Q _ hrel
    simpa using hrel
  | cons pr rest ih =>
    intro st Q hfacts hrel
    obtain ⟨hpre, hdirs, hshape⟩ := hfacts pr (List.mem_cons_self _ _)
    set s := pr.1 with hs
    set t := out ++ [AAP, lastName s] with ht
    have htgt : out ++ pr.2.drop s.dropLast.length = t := by
      rw [hshape, hs, List.drop_left]
    have hOutT : ∀ x, ¬ inp <+: t ++ x := by
      intro x
      rw [ht, List.append_assoc]
      exact not_inp_prefix_of_out_ext h1 h2 (List.prefix_refl _)
    have htdrop : ∃ x, t.dropLast = out ++ x := by
      refine ⟨[AAP], ?_⟩
      rw [ht, dropLast_out_ext (by simp)]
      rfl
    have hmp : move_project st.fs pr.1 pr.2 out false []
        = ((st.fs.mkdirParents t.dropLast).moveTree s t, true) := by
      rw [move_project]
      rw [if_neg (fun h => Bool.false_ne_true h)]
      rw [if_neg (show ¬ (([] : List FPath).contains pr.1 = true) from
        fun h => Bool.false_ne_true h)]
      rw [htgt]
    have hfs' : (phase1Step out false [] st pr).fs
        = (st.fs.mkdirParents t.dropLast).moveTree s t := by
      rw [phase1Step, hmp]
      rfl
    have hrel' : Rel1 fs inp (Q ++ [s]) ((phase1Step out false [] st pr).fs) := by
      rw [hfs']
      intro p hp hcovQs
      obtain ⟨hcovQ, hsp⟩ := coveredBy_snoc_false hcovQs
      obtain ⟨hrd, hrf⟩ := hrel p hp hcovQ
      obtain ⟨hmd, hmf⟩ := mkdirParents_childNames h1 h2 st.fs htdrop hp
      constructor
      · rw [moveTree_childDirNames _ hOutT hp, hmd, hrd, List.filter_filter]
        refine List.filter_congr ?_
        intro d _
        rw [coveredBy_append, coveredBy_singleton, Bool.not_or]
        rw [Bool.and_comm]
      · rw [moveTree_childFileNames _ hOutT hp ?_, hmf, hrf]
        intro q hq hchild
        have hq' : q ∈ st.fs.files := by
          simpa [FS.mkdirParents] using hq
        have hqeq : q = p ++ [lastName q] := child_eq_parent_snoc hchild
        have hnmem : lastName q ∈ st.fs.childFileNames p := by
          refine mem_childFileNames.mpr ?_
          rw [← hqeq]
          exact hq'
        rw [hrf] at hnmem
        have hqfs : q ∈ fs.files := by
          rw [hqeq]
          exact mem_childFileNames.mp hnmem
        refine Bool.eq_false_iff.mpr (fun hpref => ?_)
        have hsq : s <+: q := List.isPrefixOf_iff_prefix.mp hpref
        rw [hqeq] at hsq
        rcases prefix_snoc_iff.mp hsq with h | h
        · rw [List.isPrefixOf_iff_prefix.mpr h] at hsp
          exact absurd hsp (by simp)
        · apply hWF.disjoint s hdirs
          rw [hs] at h ⊢
          rw [h, ← hqeq]
          exact hqfs
    have := ih (phase1Step out false [] st pr) (Q ++ [s])
      (fun pr' hpr' => hfacts pr' (List.mem_cons_of_mem pr hpr')) hrel'
    rw [List.foldl_cons]
    rw [List.map_cons, ← hs]
    have hQ : Q ++ [s] ++ rest.map Prod.fst = Q ++ (s :: rest.map Prod.fst) := by
      rw [List.append_assoc]
      rfl
    rw [← hQ]
    exact this

theorem categorize_real_nofail (cfg : Config) (fsR : FS) (filePath outputDir : FPath) :
    (categorize_and_move_file cfg fsR filePath outputDir false []).1
      = (fsR.mkdirParents
          (outputDir ++ splitSlash (get_category_for_file cfg (lastName filePath)))).moveFile
          filePath
          (generate_unique_filename fsR
            ((outputDir ++ splitSlash (get_category_for_file cfg (lastName filePath)))
              ++ [lastName filePath]))
    ∧ (categorize_and_move_file cfg fsR filePath outputDir false []).2.1 = true :=
  ⟨rfl, rfl⟩

theorem Rel2_mkdir {fs : FS} {P : List FPath} {inp out : FPath} {fsR : FS} {V : List FPath}
    (h1 : ¬ inp <+: out) (h2 : ¬ out <+: inp) {t : FPath} (ht : ∃ x, t = out ++ x)
    (h : Rel2 fs P inp fsR V) : Rel2 fs P inp (fsR.mkdirParents t) V := by
  intro p hp hcov
  obtain ⟨hd, hf⟩ := h p hp hcov
  obtain ⟨hmd, hmf⟩ := mkdirParents_childNames h1 h2 fsR ht hp
  exact ⟨hmd.trans hd, hmf.trans hf⟩

theorem Rel2_moveFile {fs : FS} {P : List FPath} {inp : FPath} {fsR : FS} {V : List FPath}
    {src tgt : FPath} (hOut : ¬ inp <+: tgt)
    (h : Rel2 fs P inp fsR V) : Rel2 fs P inp (fsR.moveFile src tgt) (V ++ [src]) := by
  intro p hp hcov
  obtain ⟨hd, hf⟩ := h p hp hcov
  constructor
  · exact hd
  · rw [moveFile_childFileNames fsR hOut hp, hf, List.filter_filter]
    refine List.filter_congr ?_
    intro n _
    rw [contains_append_bool]
    by_cases hsrc : (p ++ [n]) = src
    · have : ([src].contains (p ++ [n])) = true := contains_iff.mpr (by simp [hsrc])
      simp [hsrc, this]
    · have : ([src].contains (p ++ [n])) = false :=
        Bool.eq_false_iff.mpr (fun hh => hsrc (by simpa using contains_iff.mp hh))
      simp [hsrc, this]

theorem visitFiles_covered {fs : FS} {P : List FPath} {x : FPath}
    (h : coveredBy P x = true) : ∀ fuel, visitFiles fs P fuel x = [] := by
  intro fuel
  cases fuel with
  | zero => rw [visitFiles]
  | succ fuel =>
    rw [visitFiles]
    rw [if_pos h]

theorem flatten_over_filter {p : FPath} {P : List FPath} {fs : FS} (fuel : Nat) :
    ∀ (l : List String),
      ((l.filter (fun d => ! coveredBy P (p ++ [d]))).map
        (fun d => visitFiles fs P fuel (p ++ [d]))).flatten
      = (l.map (fun d => visitFiles fs P fuel (p ++ [d]))).flatten := by
  intro l
  induction l with
  | nil => rfl
  | cons d rest ih =>
    by_cases hcov : coveredBy P (p ++ [d]) = true
    · rw [List.filter_cons_of_neg (by simp [hcov])]
      rw [List.map_cons, List.flatten_cons, visitFiles_covered hcov fuel]
      rw [ih]
      rfl
    · have hcov' : coveredBy P (p ++ [d]) = false := Bool.eq_false_iff.mpr hcov
      rw [List.filter_cons_of_pos (by simp [hcov'])]
      rw [List.map_cons, List.map_cons, List.flatten_cons, List.flatten_cons, ih]

theorem processFilesIn_real (cfg : Config) {inp out : FPath} {fs : FS} {P : List FPath}
    (h1 : ¬ inp <+: out) (h2 : ¬ out <+: inp) {p : FPath} (_hp : inp <+: p)
    (hcov : coveredBy P p = false) :
    ∀ (names : List String) (st : P2State) (V : List FPath),
      Rel2 fs P inp st.fs V →
      (processFilesIn cfg out false [] P p names st).decisions.map Prod.fst
        = st.decisions.map Prod.fst ++ names.map (fun n => p ++ [n])
      ∧ Rel2 fs P inp (processFilesIn cfg out false [] P p names st).fs
          (V ++ names.map (fun n => p ++ [n])) := by
  intro names
  induction names with
  | nil =>
    intro st V hrel
    refine ⟨by simp [processFilesIn], ?_⟩
    simpa [processFilesIn] using hrel
  | cons n rest ih =>
    intro st V hrel
    simp only [processFilesIn] at ih ⊢
    rw [List.foldl_cons]
    rw [if_neg (by rw [skipCheck_false hcov n]; exact Bool.false_ne_true)]
    obtain ⟨hc1, _⟩ := categorize_real_nofail cfg st.fs (p ++ [n]) out
    set tgt := generate_unique_filename st.fs
      ((out ++ splitSlash (get_category_for_file cfg (lastName (p ++ [n]))))
        ++ [lastName (p ++ [n])]) with htgt
    have hOutTgt : ¬ inp <+: tgt := by
      obtain ⟨nm, hnm⟩ := generate_unique_out_ext st.fs
        (out ++ splitSlash (get_category_for_file cfg (lastName (p ++ [n]))))
        (lastName (p ++ [n]))
      rw [htgt, hnm, List.append_assoc]
      exact not_inp_prefix_of_out_ext h1 h2 (List.prefix_refl _)
    have hrel2 : Rel2 fs P inp
        (categorize_and_move_file cfg st.fs (p ++ [n]) out false []).1
        (V ++ [p ++ [n]]) := by
      rw [hc1]
      exact Rel2_moveFile hOutTgt (Rel2_mkdir h1 h2 ⟨_, rfl⟩ hrel)
    obtain ⟨ihd, ihr⟩ := ih
      { st with
        fs := (categorize_and_move_file cfg st.fs (p ++ [n]) out false []).1
        decisions := st.decisions
          ++ [(p ++ [n], (categorize_and_move_file cfg st.fs (p ++ [n]) out false []).2.2)]
        filesMoved := st.filesMoved
          + (if (categorize_and_move_file cfg st.fs (p ++ [n]) out false []).2.1 then 1 else 0)
        errors := st.errors
          + (if (categorize_and_move_file cfg st.fs (p ++ [n]) out false []).2.1 then 0 else 1)
        processedItems := st.processedItems + 1 }
      (V ++ [p ++ [n]]) hrel2
    constructor
    · rw [ihd]
      simp
    · have : V ++ [p ++ [n]] ++ rest.map (fun n => p ++ [n])
          = V ++ (p ++ [n]) :: rest.map (fun n => p ++ [n]) := by
        rw [List.append_assoc]
        rfl
      rw [this] at ihr
      simpa using ihr

theorem phase2Go_real (cfg : Config) {inp out : FPath} {fs : FS} {P : List FPath}
    (h1 : ¬ inp <+: out) (h2 : ¬ out <+: inp) (hWF : fs.WF) (del : Bool) :
    ∀ (fuel : Nat) (p : FPath) (st : P2State) (V : List FPath),
      inp <+: p →
      Rel2 fs P inp st.fs V →
      (∀ q ∈ V, ¬ p <+: q) →
      ∃ V',
        (phase2Go cfg out false del [] P fuel p st).decisions.map Prod.fst
          = st.decisions.map Prod.fst ++ visitFiles fs P fuel p
        ∧ Rel2 fs P inp (phase2Go cfg out false del [] P fuel p st).fs V'
        ∧ (∀ q ∈ V', q ∈ V ∨ p <+: q) := by
  intro fuel
  induction fuel with
  | zero =>
    intro p st V _ hrel _
    rw [phase2Go, visitFiles]
    exact ⟨V, by simp, hrel, fun q hq => Or.inl hq⟩
  | succ fuel ih =>
    intro p st V hp hrel hV
    rw [phase2Go, visitFiles]
    by_cases hcov : coveredBy P p = true
    · rw [if_pos hcov, if_pos hcov]
      exact ⟨V, by simp, hrel, fun q hq => Or.inl hq⟩
    · have hcov' : coveredBy P p = false := Bool.eq_false_iff.mpr hcov
      rw [if_neg hcov, if_neg hcov]
      set st1 := if del then { st with candidates := st.candidates ++ [p] } else st
        with hst1
      have hst1fs : st1.fs = st.fs ∧ st1.decisions = st.decisions := by
        rw [hst1]
        cases del
        · exact ⟨rfl, rfl⟩
        · exact ⟨rfl, rfl⟩
      have hrel1 : Rel2 fs P inp st1.fs V := by
        rw [hst1fs.1]
        exact hrel
      have hfnames : st1.fs.childFileNames p = fs.childFileNames p := by
        rw [(hrel1 p hp hcov').2]
        refine List.filter_eq_self.mpr ?_
        intro n hn
        have hnot : ¬ (p ++ [n]) ∈ V := fun hmem => hV _ hmem (List.prefix_append p [n])
        have : V.contains (p ++ [n]) = false :=
          Bool.eq_false_iff.mpr (fun hc => hnot (contains_iff.mp hc))
        rw [this]
        rfl
      have hdnames : st1.fs.childDirNames p
          = (fs.childDirNames p).filter (fun d => ! coveredBy P (p ++ [d])) :=
        (hrel1 p hp hcov').1
      obtain ⟨hdec2, hrel2⟩ := processFilesIn_real cfg h1 h2 hp hcov'
        (st1.fs.childFileNames p) st1 V hrel1
      have hV2props : ∀ q ∈ V ++ (st1.fs.childFileNames p).map (fun n => p ++ [n]),
          q ∈ V ∨ p <+: q := by
        intro q hq
        rcases List.mem_append.mp hq with h | h
        · exact Or.inl h
        · obtain ⟨n, _, rfl⟩ := List.mem_map.mp h
          exact Or.inr (List.prefix_append p [n])
      -- the fold over the remaining subdirectories
      have hfold : ∀ (l : List String), l.Nodup → (∀ d ∈ l, (p ++ [d]) ∈ fs.dirs) →
          ∀ (s : P2State) (W : List FPath), Rel2 fs P inp s.fs W →
            (∀ q ∈ W, q ∈ V ∨ p <+: q) →
            (∀ d ∈ l, ∀ q ∈ W, ¬ (p ++ [d]) <+: q) →
            ∃ W',
              (l.foldl (fun s d =>
                phase2Go cfg out false del [] P fuel (p ++ [d]) s) s).decisions.map Prod.fst
                = s.decisions.map Prod.fst
                  ++ (l.map (fun d => visitFiles fs P fuel (p ++ [d]))).flatten
              ∧ Rel2 fs P inp
                  (l.foldl (fun s d =>
                    phase2Go cfg out false del [] P fuel (p ++ [d]) s) s).fs W'
              ∧ (∀ q ∈ W', q ∈ W ∨ p <+: q) := by
        intro l
        induction l with
        | nil =>
          intro _ _ s W hrelW _ _
          exact ⟨W, by simp, hrelW, fun q hq => Or.inl hq⟩
        | cons d lrest ihl =>
          intro hnd hdirs s W hrelW hWp hWl
          rw [List.foldl_cons]
          obtain ⟨V1, k1, k2, k3⟩ := ih (p ++ [d]) s W
            (hp.trans (List.prefix_append p [d])) hrelW (hWl d (List.mem_cons_self d lrest))
          have hV1p : ∀ q ∈ V1, q ∈ V ∨ p <+: q := by
            intro q hq
            rcases k3 q hq with h | h
            · exact hWp q h
            · exact Or.inr ((List.prefix_append p [d]).trans h)
          have hV1W : ∀ q ∈ V1, q ∈ W ∨ p <+: q := by
            intro q hq
            rcases k3 q hq with h | h
            · exact Or.inl h
            · exact Or.inr ((List.prefix_append p [d]).trans h)
          have hV1l : ∀ d' ∈ lrest, ∀ q ∈ V1, ¬ (p ++ [d']) <+: q := by
            intro d' hd' q hq hpre'
            rcases k3 q hq with h | h
            · exact hWl d' (List.mem_cons_of_mem d hd') q h hpre'
            · rcases List.prefix_or_prefix_of_prefix h hpre' with hcomp | hcomp
              · have heq := snoc_prefix_snoc_eq hcomp
                exact (List.nodup_cons.mp hnd).1 (heq ▸ hd')
              · have heq := snoc_prefix_snoc_eq hcomp
                exact (List.nodup_cons.mp hnd).1 (heq ▸ hd')
          obtain ⟨W', m1, m2, m3⟩ := ihl (List.nodup_cons.mp hnd).2
            (fun d' hd' => hdirs d' (List.mem_cons_of_mem d hd'))
            _ V1 k2 hV1p hV1l
          refine ⟨W', ?_, m2, ?_⟩
          · rw [m1, k1]
            simp
          · intro q hq
            rcases m3 q hq with h | h
            · exact hV1W q h
            · exact Or.inr h
      have hsubnodup : ((fs.childDirNames p).filter
          (fun d => ! coveredBy P (p ++ [d]))).Nodup :=
        List.Nodup.filter _ (childDirNames_nodup hWF.dirsNodup p)
      have hsubdirs : ∀ d ∈ (fs.childDirNames p).filter
          (fun d => ! coveredBy P (p ++ [d])), (p ++ [d]) ∈ fs.dirs :=
        fun d hd => mem_childDirNames.mp (List.mem_of_mem_filter hd)
      have hV2l : ∀ d ∈ (fs.childDirNames p).filter (fun d => ! coveredBy P (p ++ [d])),
          ∀ q ∈ V ++ (st1.fs.childFileNames p).map (fun n => p ++ [n]),
            ¬ (p ++ [d]) <+: q := by
        intro d hd q hq hpre
        rcases List.mem_append.mp hq with hqV | hqF
        · exact hV q hqV ((List.prefix_append p [d]).trans hpre)
        · obtain ⟨n, hn, rfl⟩ := List.mem_map.mp hqF
          have heq : d = n := snoc_prefix_snoc_eq hpre
          rw [hfnames] at hn
          exact hWF.disjoint (p ++ [d]) (hsubdirs d hd)
            (heq ▸ mem_childFileNames.mp hn)
      obtain ⟨W', m1, m2, m3⟩ := hfold
        ((fs.childDirNames p).filter (fun d => ! coveredBy P (p ++ [d])))
        hsubnodup hsubdirs
        (processFilesIn cfg out false [] P p (st1.fs.childFileNames p) st1)
        (V ++ (st1.fs.childFileNames p).map (fun n => p ++ [n]))
        hrel2 hV2props hV2l
      rw [← hdnames] at m1 m2
      refine ⟨W', ?_, ?_, ?_⟩
      · rw [m1, hdec2, hst1fs.2, hfnames]
        rw [hdnames, flatten_over_filter]
        simp
      · exact m2
      · intro q hq
        rcases m3 q hq with h | h
        · exact hV2props q h
        · exact Or.inr h

theorem processFilesIn_target (cfg : Config) (out : FPath) (dry : Bool)
    (ff P : List FPath) (p : FPath) :
    ∀ (names : List String) (st : P2State),
      (∀ dec ∈ st.decisions, dec.2.dropLast
        = out ++ splitSlash (get_category_for_file cfg (lastName dec.1))) →
      ∀ dec ∈ (processFilesIn cfg out dry ff P p names st).decisions,
        dec.2.dropLast = out ++ splitSlash (get_category_for_file cfg (lastName dec.1)) := by
  intro names
  induction names with
  | nil =>
    intro st h
    simpa [processFilesIn] using h
  | cons n rest ih =>
    intro st h
    simp only [processFilesIn] at ih ⊢
    rw [List.foldl_cons]
    by_cases hskip : (P.any
        (fun q => q.isPrefixOf (p ++ [n]) && ¬ q = (p ++ [n]))) = true
    · rw [if_pos hskip]
      exact ih st h
    · rw [if_neg hskip]
      refine ih _ ?_
      intro dec hdec
      rcases List.mem_append.mp hdec with hdec | hdec
      · exact h dec hdec
      · rcases List.mem_singleton.mp hdec with rfl
        exact categorize_target_dir cfg st.fs p n out dry ff

theorem phase2Go_target (cfg : Config) (out : FPath) (dry del : Bool)
    (ff P : List FPath) :
    ∀ (fuel : Nat) (p : FPath) (st : P2State),
      (∀ dec ∈ st.decisions, dec.2.dropLast
        = out ++ splitSlash (get_category_for_file cfg (lastName dec.1))) →
      ∀ dec ∈ (phase2Go cfg out dry del ff P fuel p st).decisions,
        dec.2.dropLast = out ++ splitSlash (get_category_for_file cfg (lastName dec.1)) := by
  intro fuel
  induction fuel with
  | zero =>
    intro p st h
    simpa [phase2Go] using h
  | succ fuel ih =>
    intro p st h
    rw [phase2Go]
    by_cases hcov : coveredBy P p = true
    · rw [if_pos hcov]
      exact h
    · rw [if_neg hcov]
      have hst1 : ∀ dec ∈ (if del then { st with candidates := st.candidates ++ [p] }
          else st).decisions, dec.2.dropLast
          = out ++ splitSlash (get_category_for_file cfg (lastName dec.1)) := by
        cases del
        · exact h
        · exact h
      have hst2 := processFilesIn_target cfg out dry ff P p
        ((if del then { st with candidates := st.candidates ++ [p] }
          else st).fs.childFileNames p)
        (if del then { st with candidates := st.candidates ++ [p] } else st) hst1
      have hfold : ∀ (l : List String) (s : P2State),
          (∀ dec ∈ s.decisions, dec.2.dropLast
            = out ++ splitSlash (get_category_for_file cfg (lastName dec.1))) →
          ∀ dec ∈ (l.foldl (fun s d =>
              phase2Go cfg out dry del ff P fuel (p ++ [d]) s) s).decisions,
            dec.2.dropLast
              = out ++ splitSlash (get_category_for_file cfg (lastName dec.1)) := by
        intro l
        induction l with
        | nil => exact fun s hs => hs
        | cons d lrest ihl =>
          intro s hs
          rw [List.foldl_cons]
          exact ihl _ (ih (p ++ [d]) s hs)
      exact hfold _ _ hst2

/-- C3 (amended): a dry run computes the same project classifications as a
real run, visits the same source files in the same order, assigns every file
the same destination category directory, and mutates nothing (filesystem
unchanged, no directory deleted); only the final collision disambiguator of a
destination filename may differ between the two modes. -/
theorem C3_amended (cfg : Config) (fs : FS) (inp : FPath) (outOpt : Option FPath)
    (out : FPath) (delEmpty : Bool)
    (hWF : fs.WF)
    (hval : validate_input_paths fs inp outOpt = .ok (inp, out))
    (h1 : ¬ inp <+: out) (h2 : ¬ out <+: inp) :
    (sort_files cfg fs inp outOpt true delEmpty [] []).fs = fs
    ∧ (sort_files cfg fs inp outOpt true delEmpty [] []).dirsDeleted = 0
    ∧ (sort_files cfg fs inp outOpt true delEmpty [] []).projects
      = (sort_files cfg fs inp outOpt false delEmpty [] []).projects
    ∧ (sort_files cfg fs inp outOpt true delEmpty [] []).decisions.map Prod.fst
      = (sort_files cfg fs inp outOpt false delEmpty [] []).decisions.map Prod.fst
    ∧ (∀ dec ∈ (sort_files cfg fs inp outOpt true delEmpty [] []).decisions,
        dec.2.dropLast = out ++ splitSlash (get_category_for_file cfg (lastName dec.1)))
    ∧ (∀ dec ∈ (sort_files cfg fs inp outOpt false delEmpty [] []).decisions,
        dec.2.dropLast = out ++ splitSlash (get_category_for_file cfg (lastName dec.1))) := by
  have hD := @sort_files_eq_sortPhases cfg fs inp outOpt true delEmpty [] [] inp out hval
  have hR := @sort_files_eq_sortPhases cfg fs inp outOpt false delEmpty [] [] inp out hval
  have hinpdir : inp ∈ fs.dirs := (validate_ok_facts hval).2
  set CLs := identify_projects fs cfg inp [] with hCLs
  set P := CLs.map Prod.fst with hP
  -- both runs claim exactly the sources of the discovery pass
  have hfilterD : CLs.filter (projOk true []) = CLs :=
    List.filter_eq_self.mpr (fun pr _ => rfl)
  have hfilterR : CLs.filter (projOk false []) = CLs :=
    List.filter_eq_self.mpr (fun pr _ => rfl)
  have hprocD : (phase1Run cfg fs inp out true []).processed = P := by
    rw [(phase1Run_spec cfg fs inp out true []).1, ← hCLs, hfilterD, hP]
  have hprocR : (phase1Run cfg fs inp out false []).processed = P := by
    rw [(phase1Run_spec cfg fs inp out false []).1, ← hCLs, hfilterR, hP]
  -- the dry run never touches the filesystem
  have hfsD : (phase1Run cfg fs inp out true []).fs = fs := phase1_dry_fs out [] CLs _
  obtain ⟨hdryfs, hdrydec⟩ := phase2Go_dry cfg out delEmpty []
    (phase1Run cfg fs inp out true []).processed fs (fs.maxDepth + 1) inp
    ⟨(phase1Run cfg fs inp out true []).fs, 0, 0,
      (phase1Run cfg fs inp out true []).processedItems, [], []⟩ hfsD
  -- the real run satisfies the walk relation after phase 1
  have hfacts : ∀ pr ∈ CLs, inp <+: pr.1 ∧ pr.1 ∈ fs.dirs
      ∧ pr.2 = pr.1.dropLast ++ [AAP, lastName pr.1] := by
    intro pr hpr
    obtain ⟨hpre, hdir⟩ := identifyGo_source_prefix fs cfg [] (fs.maxDepth + 1) inp pr hpr
    refine ⟨hpre, ?_, identifyGo_claim_shape fs cfg [] (fs.maxDepth + 1) inp pr hpr⟩
    rcases hdir with h | h
    · exact h
    · exact h ▸ hinpdir
  have hrel1 : Rel1 fs inp P (phase1Run cfg fs inp out false []).fs := by
    have := phase1_real_rel hWF h1 h2 CLs ⟨fs, [], 0, 0, 0⟩ [] hfacts
      (Rel1_refl fs inp)
    rw [List.nil_append] at this
    exact this
  rw [← hprocR] at hrel1
  obtain ⟨V', hrealdec, _, _⟩ := phase2Go_real cfg h1 h2 hWF delEmpty (fs.maxDepth + 1)
    inp ⟨(phase1Run cfg fs inp out false []).fs, 0, 0,
      (phase1Run cfg fs inp out false []).processedItems, [], []⟩ []
    (List.prefix_refl inp) (Rel2_of_Rel1 hrel1) (by simp)
  -- assemble
  rw [hD, hR]
  refine ⟨?_, ?_, rfl, ?_, ?_, ?_⟩
  · cases delEmpty
    · exact hdryfs
    · exact hdryfs
  · cases delEmpty
    · rfl
    · rfl
  · have key : (phase2Go cfg out true delEmpty []
        (phase1Run cfg fs inp out true []).processed (fs.maxDepth + 1) inp
        ⟨(phase1Run cfg fs inp out true []).fs, 0, 0,
          (phase1Run cfg fs inp out true []).processedItems, [], []⟩).decisions.map Prod.fst
      = (phase2Go cfg out false delEmpty []
        (phase1Run cfg fs inp out false []).processed (fs.maxDepth + 1) inp
        ⟨(phase1Run cfg fs inp out false []).fs, 0, 0,
          (phase1Run cfg fs inp out false []).processedItems, [], []⟩).decisions.map
            Prod.fst := by
      rw [hdrydec, hrealdec, hprocD, hprocR]
    exact key
  · exact phase2Go_target cfg out true delEmpty []
      (phase1Run cfg fs inp out true []).processed (fs.maxDepth + 1) inp
      ⟨(phase1Run cfg fs inp out true []).fs, 0, 0,
        (phase1Run cfg fs inp out true []).processedItems, [], []⟩
      (fun dec h => absurd h (List.not_mem_nil dec))
  · exact phase2Go_target cfg out false delEmpty []
      (phase1Run cfg fs inp out false []).processed (fs.maxDepth + 1) inp
      ⟨(phase1Run cfg fs inp out false []).fs, 0, 0,
        (phase1Run cfg fs inp out false []).processedItems, [], []⟩
      (fun dec h => absurd h (List.not_mem_nil dec))

theorem C3_amended_witness :
    (sort_files defaultConfig twinFS ["in"] (some ["out"]) true false [] []).fs = twinFS
    ∧ (sort_files defaultConfig twinFS ["in"] (some ["out"]) true false [] []).projects
      = (sort_files defaultConfig twinFS ["in"] (some ["out"]) false false [] []).projects
    ∧ (sort_files defaultConfig twinFS ["in"] (some ["out"]) true false [] []).decisions.map
        Prod.fst
      = (sort_files defaultConfig twinFS ["in"] (some ["out"]) false false [] []).decisions.map
        Prod.fst := by
  have h := C3_amended defaultConfig twinFS ["in"] (some ["out"]) ["out"] false
    ⟨by decide, by decide, by decide⟩ (by rfl)
    (by intro hc; rcases hc with ⟨t, ht⟩; simp at ht)
    (by intro hc; rcases hc with ⟨t, ht⟩; simp at ht)
  exact ⟨h.1, h.2.2.1, h.2.2.2.1⟩

end FileSorter
